import Mathlib

/-!
# Esp-radio: the UTF-8 to extended-ASCII decoder of `asciitools.h`

A shallow embedding of the two `utf8ascii` overloads of `src/asciitools.h` and of
their caller `displayText` of `src/display.h`, and theorems about them.

Conventions of the embedding.

* A `byte` (and a `char`, whose conversions to and from `byte` keep the bit
  pattern) is a natural number; the bytes a caller can pass are those below 256.
* The function-local `static byte c1` is passed in and returned explicitly.  Its
  value before the first call is 0 (static storage), called the reset state.
* Reading or writing an array outside its bounds has no defined result in the
  source language; such an access makes the embedded function return `none`.
-/

namespace EspRadio

/-! ## Definitions -/

/-- The string literal that initialises `lut_C3` (asciitools.h, line 14). -/
def lut_C3_text : String :=
  "AAAAAAACEEEEIIIIDNOOOOO#0UUUU###aaaaaaaceeeeiiiidnooooo##uuuuyyy"

/-- The array `static const byte lut_C3[]`: the array bound is taken from the
initialiser, so it holds the 64 characters of the literal followed by the
terminating NUL of the literal, 65 bytes in all. -/
def lut_C3 : List Nat :=
  lut_C3_text.toList.map Char.toNat ++ [0]

/-- The per-byte decoder `byte utf8ascii ( byte ascii )`.

`utf8ascii c1 ascii` is called with the register holding `c1`; the result is
`some (res, c1')` with `res` the returned byte and `c1'` the register after the
call, or `none` when `lut_C3[ascii-128]` reads outside the array.  The `switch`
on `c1` is written as a chain of equality tests; a `case 0x82` whose `if` fails,
and a `c1` matching no `case`, both leave `res` at its default 0. -/
def utf8ascii (c1 ascii : Nat) : Option (Nat × Nat) :=
  if ascii ≤ 0x7F then
    some (ascii, 0)
  else if c1 = 0xC2 then
    some ('~'.toNat, ascii)
  else if c1 = 0xC3 then
    match lut_C3[ascii - 128]? with
    | some res => some (res, ascii)
    | none => none
  else if c1 = 0x82 then
    if ascii = 0xAC then some ('E'.toNat, ascii) else some (0, ascii)
  else
    some (0, ascii)

/-- Successive calls of the per-byte decoder on the bytes of a list, the
register threaded from one call to the next: the list of returned bytes and the
register after the last call. -/
def decodeBytes (c1 : Nat) : List Nat → Option (List Nat × Nat)
  | [] => some ([], c1)
  | b :: bs =>
    match utf8ascii c1 b with
    | none => none
    | some (res, c1') =>
      match decodeBytes c1' bs with
      | none => none
      | some (outs, c1'') => some (res :: outs, c1'')

/-- The assignment `s[k] = c` into a buffer of `s.length` bytes; `none` when `k`
is outside the buffer. -/
def writeByte (s : List Nat) (k c : Nat) : Option (List Nat) :=
  if k < s.length then some (s.set k c) else none

/-- The `for` loop of `void utf8ascii ( char* s )` together with the final
`s[k] = 0`, started at read index `i` and write index `k` with the register
holding `c1`.  The first argument bounds the number of times the loop condition
is evaluated; `none` is returned when that bound is used up, when `s[i]` is read
outside the buffer, when the per-byte decoder has no result, or when a write
falls outside the buffer.  Otherwise the result is the register and the buffer
on return. -/
def utf8asciiLoop : Nat → List Nat → Nat → Nat → Nat → Option (Nat × List Nat)
  | 0, _, _, _, _ => none
  | n + 1, s, c1, i, k =>
    match s[i]? with
    | none => none
    | some b =>
      if b = 0 then
        match writeByte s k 0 with
        | some s' => some (c1, s')
        | none => none
      else
        match utf8ascii c1 b with
        | none => none
        | some (c, c1') =>
          if c ≠ 0 then
            match writeByte s k c with
            | some s' => utf8asciiLoop n s' c1' (i + 1) (k + 1)
            | none => none
          else
            utf8asciiLoop n s c1' (i + 1) k

/-- The in-place conversion `void utf8ascii ( char* s )` on a buffer `s`, the
register holding `c1` on entry: the register and the buffer on return.  The read
index grows by one per iteration and a read at `s.length` is already outside the
buffer, so `s.length + 1` evaluations of the loop condition are never used up. -/
def utf8asciiStr (c1 : Nat) (s : List Nat) : Option (Nat × List Nat) :=
  utf8asciiLoop (s.length + 1) s c1 0 0

/-- The bytes of a buffer before its first 0 byte: the C string it holds. -/
def cstr (s : List Nat) : List Nat :=
  s.takeWhile (fun b => b != 0)

/-- The C library `strlen`: the number of bytes before the first 0 byte. -/
def strlen (s : List Nat) : Nat :=
  (cstr s).length

/-- The bytes the conversion stores: the non-zero ones among the returned bytes. -/
def emitted (outs : List Nat) : List Nat :=
  outs.filter (fun c => c != 0)

/-- The in-place conversion as the specification words it: feed the bytes before
the terminator, in order, through the per-byte decoder, keep the non-zero
results at the front of the buffer and put a fresh 0 after them; the bytes of
the buffer behind that 0 stay. -/
def filterAfterMap (c1 : Nat) (s : List Nat) : Option (Nat × List Nat) :=
  match decodeBytes c1 (cstr s) with
  | none => none
  | some (outs, c1') =>
    some (c1', emitted outs ++ 0 :: s.drop ((emitted outs).length + 1))

/-- The loop of `void utf8ascii ( char* s )` once more, with a record of its
indices: the first component lists the pair `(i, k)` of read index and write
index at each evaluation of the loop condition `s[i]`, in order; a write made
in that iteration (the `s[k++] = c` of the body, or the final `s[k] = 0`) is at
that `k`.  The second component is the result as `utf8asciiLoop` computes it. -/
def utf8asciiLoopTrace :
    Nat → List Nat → Nat → Nat → Nat → List (Nat × Nat) × Option (Nat × List Nat)
  | 0, _, _, _, _ => ([], none)
  | n + 1, s, c1, i, k =>
    match s[i]? with
    | none => ([(i, k)], none)
    | some b =>
      if b = 0 then
        match writeByte s k 0 with
        | some s' => ([(i, k)], some (c1, s'))
        | none => ([(i, k)], none)
      else
        match utf8ascii c1 b with
        | none => ([(i, k)], none)
        | some (c, c1') =>
          if c ≠ 0 then
            match writeByte s k c with
            | some s' =>
              ((i, k) :: (utf8asciiLoopTrace n s' c1' (i + 1) (k + 1)).1,
                (utf8asciiLoopTrace n s' c1' (i + 1) (k + 1)).2)
            | none => ([(i, k)], none)
          else
            ((i, k) :: (utf8asciiLoopTrace n s c1' (i + 1) k).1,
              (utf8asciiLoopTrace n s c1' (i + 1) k).2)

/-- The constant `const int CHAR_WIDTH = 5` of display.h. -/
def CHAR_WIDTH : Nat := 5

/-- The C library `strncpy ( dest, src, n )` as the contents of the `n` bytes of
`dest` afterwards: the first `n` bytes of the string at `src`, followed by 0
bytes up to `n` when the string is shorter than `n`.  The string at `src` is
given by the bytes from the pointer on, of which those before the first 0 count. -/
def strncpy (src : List Nat) (n : Nat) : List Nat :=
  (cstr src).take n ++ List.replicate (n - (cstr src).length) 0

/-- The buffer `buf` of `displayText` at the call `utf8ascii(buf)`: an array of
`128/CHAR_WIDTH + 1` bytes, filled by `strncpy(buf, str, sizeof(buf))` and then
`buf[sizeof(buf) - 1] = 0`. -/
def displayTextBuf (str : List Nat) : Option (List Nat) :=
  writeByte (strncpy str (128 / CHAR_WIDTH + 1)) (128 / CHAR_WIDTH + 1 - 1) 0

/-- The function `displayText ( str, x, y )` of display.h up to its draw call, the
register holding `c1` on entry: the register afterwards and the buffer that is
passed to `u8g2.drawStr`.  The coordinates and the display driver take no part
in what the buffer holds. -/
def displayText (c1 : Nat) (str : List Nat) : Option (Nat × List Nat) :=
  match displayTextBuf str with
  | none => none
  | some buf => utf8asciiStr c1 buf

/-- The UTF-8 encoding of a code point (RFC 3629): one byte below U+0080, two
bytes below U+0800, three bytes below U+10000, four bytes from there on. -/
def utf8Encode (cp : Nat) : List Nat :=
  if cp < 0x80 then
    [cp]
  else if cp < 0x800 then
    [0xC0 + cp / 0x40, 0x80 + cp % 0x40]
  else if cp < 0x10000 then
    [0xE0 + cp / 0x1000, 0x80 + cp / 0x40 % 0x40, 0x80 + cp % 0x40]
  else
    [0xF0 + cp / 0x40000, 0x80 + cp / 0x1000 % 0x40, 0x80 + cp / 0x40 % 0x40,
      0x80 + cp % 0x40]

/-- The UTF-8 encoding of a sequence of code points. -/
def utf8EncodeAll : List Nat → List Nat
  | [] => []
  | cp :: cps => utf8Encode cp ++ utf8EncodeAll cps

/-- Whether a byte sequence holds the byte 0x82 directly followed by 0xAC, the
pair that `case 0x82` of the per-byte decoder turns into the letter E. -/
def hasEuroPair : List Nat → Bool
  | a :: b :: rest => (a == 0x82 && b == 0xAC) || hasEuroPair (b :: rest)
  | _ => false

/-- Whether a byte sequence holds a 0xC3 byte directly followed by a byte above
0xC0, the pair on which `lut_C3` is read past its end. -/
def hasOverrun : List Nat → Bool
  | a :: b :: rest => (a == 0xC3 && decide (0xC0 < b)) || hasOverrun (b :: rest)
  | _ => false

/-- What a code point U+0001..U+00FF is turned into: itself below U+0080, the
tilde for U+0080..U+00BF, the entry of `lut_C3` for U+00C0..U+00FF. -/
def latin1Fold (cp : Nat) : Nat :=
  if cp < 0x80 then cp
  else if cp < 0xC0 then '~'.toNat
  else lut_C3.getD (cp - 0xC0) 0

/-! ## The per-byte decoder -/

/-- Claim C1. ASCII identity: whatever the register holds, an input byte `b` with
`b ≤ 0x7F` is returned unchanged and the register is 0 afterwards. -/
theorem utf8ascii_ascii_identity (c1 b : Nat) (hb : b ≤ 0x7F) :
    utf8ascii c1 b = some (b, 0) := by
  simp [utf8ascii, hb]

/-- Instance of `utf8ascii_ascii_identity`: the letter A under a pending 0xC3. -/
theorem utf8ascii_ascii_identity_witness :
    0x41 ≤ 0x7F ∧ utf8ascii 0xC3 0x41 = some (0x41, 0) :=
  ⟨by decide, utf8ascii_ascii_identity 0xC3 0x41 (by decide)⟩

/-- The per-byte decoder has no result exactly when the register holds 0xC3 and
the input byte is above 0xC0, where `lut_C3[ascii-128]` is read past the 65 bytes
of the array. -/
theorem utf8ascii_eq_none_iff (c1 b : Nat) :
    utf8ascii c1 b = none ↔ c1 = 0xC3 ∧ 0xC0 < b := by
  unfold utf8ascii
  split_ifs with h1 h2 h3 h4 h5
  · simp; omega
  · simp; omega
  · have hlen : lut_C3.length = 65 := by decide
    by_cases hb : b - 128 < lut_C3.length
    · rw [List.getElem?_eq_getElem hb]
      simp [h3]; omega
    · rw [List.getElem?_eq_none (by omega)]
      simp [h3]; omega
  · simp [h3]
  · simp [h3]
  · simp [h3]

/-- Claim C2. Two-byte accented letter: from the reset state the byte 0xC3 gives 0,
and a following byte `t` in 0x80..0xBF then gives the character at position
`t - 0x80` of the table string; the sequence 0xC3 0xA9 gives 0 and then the
letter e. -/
theorem utf8ascii_C3_trailing (t : Nat) (h1 : 0x80 ≤ t) (h2 : t ≤ 0xBF) :
    utf8ascii 0 0xC3 = some (0, 0xC3) ∧
    (∃ ch : Char,
      "AAAAAAACEEEEIIIIDNOOOOO#0UUUU###aaaaaaaceeeeiiiidnooooo##uuuuyyy".toList[t - 0x80]?
        = some ch ∧
      utf8ascii 0xC3 t = some (ch.toNat, t) ∧
      decodeBytes 0 [0xC3, t] = some ([0, ch.toNat], t)) ∧
    decodeBytes 0 [0xC3, 0xA9] = some ([0, 'e'.toNat], 0xA9) := by
  refine ⟨by decide, ?_, by decide⟩
  interval_cases t <;> exact ⟨_, rfl, by decide, by decide⟩

/-- Instance of `utf8ascii_C3_trailing` at the trailing byte 0xB1 (n with tilde),
which gives the letter n. -/
theorem utf8ascii_C3_trailing_witness :
    (0x80 ≤ 0xB1 ∧ 0xB1 ≤ 0xBF) ∧
    (∃ ch : Char,
      "AAAAAAACEEEEIIIIDNOOOOO#0UUUU###aaaaaaaceeeeiiiidnooooo##uuuuyyy".toList[0xB1 - 0x80]?
        = some ch ∧
      utf8ascii 0xC3 0xB1 = some (ch.toNat, 0xB1) ∧
      decodeBytes 0 [0xC3, 0xB1] = some ([0, ch.toNat], 0xB1)) :=
  ⟨by decide, (utf8ascii_C3_trailing 0xB1 (by decide) (by decide)).2.1⟩

/-- Claim C3, as stated, fails: from the reset state the sequence 0xC3 0x98 does
not give the outputs 0 and then the number sign. -/
theorem utf8ascii_C3_98_not_hash :
    (decodeBytes 0 [0xC3, 0x98]).map Prod.fst ≠ some [0, '#'.toNat] := by
  decide

/-- Claim C3, amended. Under the 0xC3 lead the trailing byte 0x98 gives the digit
0, and the trailing bytes that give the number sign are 0x97, 0x9D, 0x9E, 0x9F,
0xB7 and 0xB8: from the reset state 0xC3 0x97 gives 0 and then the number sign. -/
theorem utf8ascii_C3_hash_entries :
    (decodeBytes 0 [0xC3, 0x98]).map Prod.fst = some [0, '0'.toNat] ∧
    (decodeBytes 0 [0xC3, 0x97]).map Prod.fst = some [0, '#'.toNat] ∧
    [0x97, 0x9D, 0x9E, 0x9F, 0xB7, 0xB8].map (fun t => utf8ascii 0xC3 t)
      = [0x97, 0x9D, 0x9E, 0x9F, 0xB7, 0xB8].map (fun t => some ('#'.toNat, t)) ∧
    ((List.range 64).filter
        (fun j => decide (utf8ascii 0xC3 (0x80 + j) = some ('#'.toNat, 0x80 + j)))).map
        (fun j => 0x80 + j)
      = [0x97, 0x9D, 0x9E, 0x9F, 0xB7, 0xB8] := by
  decide

/-- Claim C4, the code at the failing inputs. The array `lut_C3` has 65 bytes, so
of the 128 indices `ascii-128` only 0..64 lie inside it: with the register at
0xC3 the input 0xC0 reads the terminating NUL and gives 0, the inputs 0xC1 and
0xFF read past the end of the array, and the in-place conversion of the string
0xC3 0xC1 makes that read. -/
theorem lut_C3_not_total :
    lut_C3.length = 65 ∧
    utf8ascii 0xC3 0xC0 = some (0, 0xC0) ∧
    lut_C3[0xC1 - 128]? = none ∧ utf8ascii 0xC3 0xC1 = none ∧
    lut_C3[0xFF - 128]? = none ∧ utf8ascii 0xC3 0xFF = none ∧
    utf8asciiStr 0 [0xC3, 0xC1, 0] = none := by
  decide

/-- Claim C5, as stated, fails: after 0xC2 the following byte 0x41 is returned as
itself, not as the tilde. -/
theorem utf8ascii_C2_ascii_not_tilde :
    (decodeBytes 0 [0xC2, 0x41]).map Prod.fst = some [0, 0x41] ∧
    (decodeBytes 0 [0xC2, 0x41]).map Prod.fst ≠ some [0, '~'.toNat] := by
  decide

/-- Claim C5, amended. From the reset state the byte 0xC2 gives 0, and the next
call gives the tilde for every following byte `x` with `0x80 ≤ x`; the sequence
0xC2 0xAA gives 0 and then the tilde. -/
theorem utf8ascii_C2_tilde (x : Nat) (hx : 0x80 ≤ x) :
    utf8ascii 0 0xC2 = some (0, 0xC2) ∧
    utf8ascii 0xC2 x = some ('~'.toNat, x) ∧
    decodeBytes 0 [0xC2, x] = some ([0, '~'.toNat], x) ∧
    decodeBytes 0 [0xC2, 0xAA] = some ([0, '~'.toNat], 0xAA) := by
  have hx' : ¬ x ≤ 0x7F := by omega
  have h2 : utf8ascii 0xC2 x = some ('~'.toNat, x) := by
    simp [utf8ascii, hx']
  refine ⟨by decide, h2, ?_, by decide⟩
  have h1 : utf8ascii 0 0xC2 = some (0, 0xC2) := by decide
  simp [decodeBytes, h1, h2]

/-- Instance of `utf8ascii_C2_tilde` at the following byte 0xFF. -/
theorem utf8ascii_C2_tilde_witness :
    0x80 ≤ 0xFF ∧ utf8ascii 0xC2 0xFF = some ('~'.toNat, 0xFF) :=
  ⟨by decide, (utf8ascii_C2_tilde 0xFF (by decide)).2.1⟩

/-- Claim C6. Euro sign at byte level: from the reset state the sequence 0x82 0xAC
gives 0 and then the letter E, and with the register at 0x82 every input byte
`x` with `0x80 ≤ x` other than 0xAC gives 0. -/
theorem utf8ascii_euro_bytes (x : Nat) (hx : 0x80 ≤ x) (hne : x ≠ 0xAC) :
    decodeBytes 0 [0x82, 0xAC] = some ([0, 'E'.toNat], 0xAC) ∧
    utf8ascii 0x82 x = some (0, x) := by
  have hx' : ¬ x ≤ 0x7F := by omega
  refine ⟨by decide, ?_⟩
  simp [utf8ascii, hx', hne]

/-- Instance of `utf8ascii_euro_bytes` at the input byte 0xAD. -/
theorem utf8ascii_euro_bytes_witness :
    (0x80 ≤ 0xAD ∧ 0xAD ≠ 0xAC) ∧
    decodeBytes 0 [0x82, 0xAC] = some ([0, 'E'.toNat], 0xAC) ∧
    utf8ascii 0x82 0xAD = some (0, 0xAD) :=
  ⟨by decide, utf8ascii_euro_bytes 0xAD (by decide) (by decide)⟩

/-! ## The in-place conversion -/

/-- Claim C7. The Euro character folds to the letter E: from the reset state the
bytes 0xE2 0x82 0xAC give the outputs 0, 0, E, and the in-place conversion of the
buffer 0xE2 0x82 0xAC 0 leaves the buffer E 0 0xAC 0, which begins E 0 and holds
the one-letter string E. -/
theorem utf8asciiStr_euro :
    decodeBytes 0 [0xE2, 0x82, 0xAC] = some ([0, 0, 'E'.toNat], 0xAC) ∧
    utf8asciiStr 0 [0xE2, 0x82, 0xAC, 0] = some (0xAC, ['E'.toNat, 0, 0xAC, 0]) ∧
    (utf8asciiStr 0 [0xE2, 0x82, 0xAC, 0]).map (fun r => r.2.take 2)
      = some ['E'.toNat, 0] ∧
    (utf8asciiStr 0 [0xE2, 0x82, 0xAC, 0]).map (fun r => cstr r.2)
      = some ['E'.toNat] := by
  decide

/-! ### The loop, step by step -/

/-- The element right behind a front part of a list. -/
theorem getElem?_append_length (a : List Nat) (b : Nat) (r : List Nat) :
    (a ++ b :: r)[a.length]? = some b := by
  induction a with
  | nil => simp
  | cons x a ih => simpa using ih

/-- The read `s[i]` when the buffer is split at the write index and at the read
index `i`. -/
theorem getElem?_front_mid (a m : List Nat) (b : Nat) (r : List Nat) (i : Nat)
    (hi : i = a.length + m.length) :
    (a ++ (m ++ b :: r))[i]? = some b := by
  have h := getElem?_append_length (a ++ m) b r
  subst hi
  simpa using h

/-- A write at the index where the front part of the buffer ends is inside the
buffer and replaces the byte there. -/
theorem writeByte_front (front tl : List Nat) (x c k : Nat) (hk : k = front.length) :
    writeByte (front ++ x :: tl) k c = some (front ++ c :: tl) := by
  subst hk
  simp [writeByte]

/-- The loop condition reads 0: the loop ends and the terminator is written. -/
theorem utf8asciiLoop_stop (n : Nat) (s s' : List Nat) (c1 i k : Nat)
    (hr : s[i]? = some 0) (hw : writeByte s k 0 = some s') :
    utf8asciiLoop (n + 1) s c1 i k = some (c1, s') := by
  simp [utf8asciiLoop, hr, hw]

/-- An iteration on which the per-byte decoder has no result. -/
theorem utf8asciiLoop_fault (n : Nat) (s : List Nat) (c1 i k b : Nat)
    (hr : s[i]? = some b) (hb : b ≠ 0) (hu : utf8ascii c1 b = none) :
    utf8asciiLoop (n + 1) s c1 i k = none := by
  simp [utf8asciiLoop, hr, hb, hu]

/-- An iteration on which the per-byte decoder returns 0: nothing is written. -/
theorem utf8asciiLoop_skip (n : Nat) (s : List Nat) (c1 i k b c1' : Nat)
    (hr : s[i]? = some b) (hb : b ≠ 0) (hu : utf8ascii c1 b = some (0, c1')) :
    utf8asciiLoop (n + 1) s c1 i k = utf8asciiLoop n s c1' (i + 1) k := by
  simp [utf8asciiLoop, hr, hb, hu]

/-- An iteration on which the per-byte decoder returns a non-zero byte, which is
written at `k`. -/
theorem utf8asciiLoop_emit (n : Nat) (s s' : List Nat) (c1 i k b c c1' : Nat)
    (hr : s[i]? = some b) (hb : b ≠ 0) (hu : utf8ascii c1 b = some (c, c1'))
    (hc : c ≠ 0) (hw : writeByte s k c = some s') :
    utf8asciiLoop (n + 1) s c1 i k = utf8asciiLoop n s' c1' (i + 1) (k + 1) := by
  simp [utf8asciiLoop, hr, hb, hu, hc, hw]

/-- Successive calls stop having a result when the first call has none. -/
theorem decodeBytes_cons_none (c1 b : Nat) (bs : List Nat) (hu : utf8ascii c1 b = none) :
    decodeBytes c1 (b :: bs) = none := by
  simp [decodeBytes, hu]

/-- Successive calls, the first call unfolded. -/
theorem decodeBytes_cons_some (c1 b c c1' : Nat) (bs : List Nat)
    (hu : utf8ascii c1 b = some (c, c1')) :
    decodeBytes c1 (b :: bs) = (decodeBytes c1' bs).map (fun r => (c :: r.1, r.2)) := by
  cases hd : decodeBytes c1' bs with
  | none => simp [decodeBytes, hu, hd]
  | some q => simp [decodeBytes, hu, hd]

/-- The loop invariant in closed form.  The buffer is `front ++ mid ++ pre ++ 0 :: rest`:
`front` is what has been written (the write index is its length), `mid` are
bytes already read and not overwritten, `pre` are the non-zero bytes still to be
read.  With room for `pre.length + 1` evaluations of the loop condition, the
loop returns the non-zero results of decoding `pre` behind `front`, then a 0,
then the bytes of the buffer that were behind that position. -/
theorem utf8asciiLoop_spec (pre : List Nat) (hpre : ∀ b ∈ pre, b ≠ 0) :
    ∀ (front mid rest : List Nat) (c1 n i k : Nat), pre.length + 1 ≤ n →
      i = front.length + mid.length → k = front.length →
      utf8asciiLoop n (front ++ (mid ++ (pre ++ 0 :: rest))) c1 i k
        = (decodeBytes c1 pre).map (fun r =>
            (r.2, front ++ (emitted r.1 ++
              0 :: (mid ++ (pre ++ 0 :: rest)).drop ((emitted r.1).length + 1)))) := by
  induction pre with
  | nil =>
    intro front mid rest c1 n i k hn hi hk
    obtain ⟨m, rfl⟩ : ∃ m, n = m + 1 := ⟨n - 1, by omega⟩
    have hread := getElem?_front_mid front mid 0 rest i hi
    rw [List.nil_append]
    cases mid with
    | nil =>
      rw [List.nil_append] at hread ⊢
      rw [utf8asciiLoop_stop m _ _ c1 i k hread (writeByte_front front _ 0 0 k hk)]
      simp [decodeBytes, emitted]
    | cons x mid =>
      rw [List.cons_append] at hread ⊢
      rw [utf8asciiLoop_stop m _ _ c1 i k hread (writeByte_front front _ x 0 k hk)]
      simp [decodeBytes, emitted]
  | cons b pre ih =>
    intro front mid rest c1 n i k hn hi hk
    obtain ⟨m, rfl⟩ : ∃ m, n = m + 1 := ⟨n - 1, by simp at hn; omega⟩
    have hb : b ≠ 0 := hpre b (by simp)
    have hpre' : ∀ x ∈ pre, x ≠ 0 := fun x hx => hpre x (by simp [hx])
    have hm : pre.length + 1 ≤ m := by simp at hn; omega
    have hread := getElem?_front_mid front mid b (pre ++ 0 :: rest) i hi
    cases hu : utf8ascii c1 b with
    | none =>
      rw [List.cons_append, utf8asciiLoop_fault m _ c1 i k b hread hb hu,
        decodeBytes_cons_none c1 b pre hu]
      rfl
    | some r =>
      obtain ⟨c, c1'⟩ := r
      rw [decodeBytes_cons_some c1 b c c1' pre hu, List.cons_append]
      by_cases hc : c = 0
      · subst hc
        rw [utf8asciiLoop_skip m _ c1 i k b c1' hread hb hu]
        have h := ih hpre' front (mid ++ [b]) rest c1' m (i + 1) k hm (by simp [hi]; omega) hk
        simp only [List.append_assoc, List.singleton_append] at h
        rw [h]
        cases hd : decodeBytes c1' pre with
        | none => rfl
        | some q => simp [emitted]
      · cases mid with
        | nil =>
          rw [List.nil_append] at hread ⊢
          rw [utf8asciiLoop_emit m _ _ c1 i k b c c1' hread hb hu hc
            (writeByte_front front _ b c k hk)]
          have h := ih hpre' (front ++ [c]) [] rest c1' m (i + 1) (k + 1) hm
            (by simp [hi]) (by simp [hk])
          simp only [List.append_assoc, List.singleton_append, List.nil_append] at h
          rw [h]
          cases hd : decodeBytes c1' pre with
          | none => rfl
          | some q => simp [emitted, hc]
        | cons x mid =>
          rw [List.cons_append] at hread ⊢
          rw [utf8asciiLoop_emit m _ _ c1 i k b c c1' hread hb hu hc
            (writeByte_front front _ x c k hk)]
          have h := ih hpre' (front ++ [c]) (mid ++ [b]) rest c1' m (i + 1) (k + 1) hm
            (by simp [hi]; omega) (by simp [hk])
          simp only [List.append_assoc, List.singleton_append] at h
          rw [h]
          cases hd : decodeBytes c1' pre with
          | none => rfl
          | some q => simp [emitted, hc]


/-- The string of a buffer holds no 0 byte. -/
theorem cstr_ne_zero (s : List Nat) : ∀ b ∈ cstr s, b ≠ 0 := by
  intro b hb
  have h := List.mem_takeWhile_imp hb
  simpa using h

/-- The string of a buffer that is zero-free bytes followed by a 0. -/
theorem cstr_append_zero (pre rest : List Nat) (hpre : ∀ b ∈ pre, b ≠ 0) :
    cstr (pre ++ 0 :: rest) = pre := by
  unfold cstr
  rw [List.takeWhile_append_of_pos (by simpa using hpre)]
  simp

/-- The buffer that holds a 0 byte is its string, a 0, and what is behind. -/
theorem cstr_split (s : List Nat) (h0 : 0 ∈ s) : ∃ rest, s = cstr s ++ 0 :: rest := by
  induction s with
  | nil => simp at h0
  | cons x s ih =>
    by_cases hx : x = 0
    · subst hx
      exact ⟨s, by simp [cstr]⟩
    · have h0' : 0 ∈ s := by
        rcases List.mem_cons.mp h0 with h | h
        · exact absurd h.symm hx
        · exact h
      obtain ⟨rest, hrest⟩ := ih h0'
      refine ⟨rest, ?_⟩
      have : cstr (x :: s) = x :: cstr s := by simp [cstr, hx]
      rw [this, List.cons_append, ← hrest]

/-- One returned byte per input byte. -/
theorem decodeBytes_length (pre : List Nat) :
    ∀ (c1 : Nat) (outs : List Nat) (c1' : Nat),
      decodeBytes c1 pre = some (outs, c1') → outs.length = pre.length := by
  induction pre with
  | nil =>
    intro c1 outs c1' h
    simp [decodeBytes] at h
    simp [h.1.symm]
  | cons b pre ih =>
    intro c1 outs c1' h
    cases hu : utf8ascii c1 b with
    | none => simp [decodeBytes, hu] at h
    | some r =>
      obtain ⟨c, c2⟩ := r
      rw [decodeBytes_cons_some c1 b c c2 pre hu] at h
      cases hd : decodeBytes c2 pre with
      | none => simp [hd] at h
      | some q =>
        obtain ⟨outs', c3⟩ := q
        simp [hd] at h
        have := ih c2 outs' c3 hd
        simp [h.1.symm, this]

/-- The stored bytes are non-zero. -/
theorem emitted_ne_zero (outs : List Nat) : ∀ b ∈ emitted outs, b ≠ 0 := by
  intro b hb
  simpa using (List.mem_filter.mp hb).2

/-- No more bytes are stored than were returned. -/
theorem emitted_length_le (outs : List Nat) : (emitted outs).length ≤ outs.length :=
  List.length_filter_le _ _

/-- The in-place conversion of a buffer that holds a 0 byte is the conversion the
specification words. -/
theorem utf8asciiStr_eq_filterAfterMap (c1 : Nat) (s : List Nat) (h0 : 0 ∈ s) :
    utf8asciiStr c1 s = filterAfterMap c1 s := by
  obtain ⟨rest, hs⟩ := cstr_split s h0
  have hlen : (cstr s).length + 1 ≤ s.length + 1 := by
    have : s.length = (cstr s).length + (rest.length + 1) := by
      conv_lhs => rw [hs]
      simp
    omega
  have h := utf8asciiLoop_spec (cstr s) (cstr_ne_zero s) [] [] rest c1 (s.length + 1) 0 0
    hlen (by simp) (by simp)
  simp only [List.nil_append] at h
  rw [← hs] at h
  unfold utf8asciiStr filterAfterMap
  rw [h]
  cases decodeBytes c1 (cstr s) with
  | none => rfl
  | some r => rfl


/-- Successive calls on bytes that are all at most 0x7F return them. -/
theorem decodeBytes_ascii (pre : List Nat) (h : ∀ b ∈ pre, b ≤ 0x7F) :
    ∀ c1 : Nat, decodeBytes c1 pre = some (pre, if pre = [] then c1 else 0) := by
  induction pre with
  | nil => intro c1; simp [decodeBytes]
  | cons b pre ih =>
    intro c1
    have hb : utf8ascii c1 b = some (b, 0) := by
      have : b ≤ 0x7F := h b (by simp)
      simp [utf8ascii, this]
    have hpre := ih (fun x hx => h x (by simp [hx])) 0
    rw [decodeBytes_cons_some c1 b b 0 pre hb, hpre]
    simp

/-- Every byte of a zero-free list is stored. -/
theorem emitted_eq_self (l : List Nat) (h : ∀ b ∈ l, b ≠ 0) : emitted l = l := by
  unfold emitted
  rw [List.filter_eq_self]
  simpa using h

/-- The buffer that holds a 0 byte, put together again from its string. -/
theorem cstr_drop (s : List Nat) (h0 : 0 ∈ s) :
    cstr s ++ 0 :: s.drop ((cstr s).length + 1) = s := by
  obtain ⟨rest, hs⟩ := cstr_split s h0
  generalize cstr s = pre at hs ⊢
  subst hs
  simp

/-- Claim C8. In-place conversion is filter-after-map: on a buffer that holds a 0
byte, whatever the register holds, the conversion has a result exactly when the
per-byte decoder has one on each byte before the first 0, and then the buffer
begins with the non-zero results, in order, of feeding those bytes one by one
through the per-byte decoder, followed by a 0.  The loop reads the buffer it is
writing to and the result is that of the bytes as they were on entry, so no
write alters a byte still to be read.  From the reset state the buffer
H i 0xC3 0xA9 0 becomes H i e 0 0, holding the string H i e. -/
theorem utf8asciiStr_is_filterAfterMap (c1 : Nat) (s : List Nat) (h0 : 0 ∈ s) :
    utf8asciiStr c1 s = filterAfterMap c1 s ∧
    utf8asciiStr c1 s = (decodeBytes c1 (cstr s)).map (fun r =>
      (r.2, emitted r.1 ++ 0 :: s.drop ((emitted r.1).length + 1))) ∧
    (∀ c1' s', utf8asciiStr c1 s = some (c1', s') →
      ∃ outs, decodeBytes c1 (cstr s) = some (outs, c1') ∧
        s'.take ((emitted outs).length + 1) = emitted outs ++ [0] ∧
        cstr s' = emitted outs) ∧
    utf8asciiStr 0 [0x48, 0x69, 0xC3, 0xA9, 0] = some (0xA9, [0x48, 0x69, 0x65, 0, 0]) ∧
    (utf8asciiStr 0 [0x48, 0x69, 0xC3, 0xA9, 0]).map (fun r => r.2.take 4)
      = some ['H'.toNat, 'i'.toNat, 'e'.toNat, 0] := by
  have heq := utf8asciiStr_eq_filterAfterMap c1 s h0
  refine ⟨heq, ?_, ?_, by decide, by decide⟩
  · rw [heq]
    unfold filterAfterMap
    cases decodeBytes c1 (cstr s) with
    | none => rfl
    | some r => rfl
  · intro c1' s' hres
    rw [heq] at hres
    unfold filterAfterMap at hres
    cases hd : decodeBytes c1 (cstr s) with
    | none => simp [hd] at hres
    | some r =>
      obtain ⟨outs, c2⟩ := r
      simp only [hd, Option.some.injEq, Prod.mk.injEq] at hres
      obtain ⟨hc, hs'⟩ := hres
      subst hc
      refine ⟨outs, rfl, ?_, ?_⟩
      · rw [← hs']
        have : emitted outs ++ 0 :: List.drop ((emitted outs).length + 1) s
            = (emitted outs ++ [0]) ++ List.drop ((emitted outs).length + 1) s := by simp
        rw [this, List.take_append_eq_append_take]
        simp
      · rw [← hs']
        exact cstr_append_zero _ _ (emitted_ne_zero outs)

/-- Instance of `utf8asciiStr_is_filterAfterMap` on the buffer H i 0xC3 0xA9 0. -/
theorem utf8asciiStr_is_filterAfterMap_witness :
    0 ∈ [0x48, 0x69, 0xC3, 0xA9, 0] ∧
    utf8asciiStr 0 [0x48, 0x69, 0xC3, 0xA9, 0] = filterAfterMap 0 [0x48, 0x69, 0xC3, 0xA9, 0] :=
  ⟨by decide, (utf8asciiStr_is_filterAfterMap 0 [0x48, 0x69, 0xC3, 0xA9, 0] (by decide)).1⟩

/-- Claim C9. No-op on pure ASCII: on a buffer that holds a 0 byte and whose bytes
before the first 0 are all at most 0x7F (so in 0x01..0x7F), whatever the
register holds, the in-place conversion returns the buffer byte for byte as it
was, the terminator where it was; the register is 0 afterwards, or unchanged
when the string is empty. -/
theorem utf8asciiStr_ascii_noop (c1 : Nat) (s : List Nat) (h0 : 0 ∈ s)
    (hascii : ∀ b ∈ cstr s, b ≤ 0x7F) :
    utf8asciiStr c1 s = some (if cstr s = [] then c1 else 0, s) ∧
    (utf8asciiStr c1 s).map (fun r => strlen r.2) = some (strlen s) := by
  have heq : utf8asciiStr c1 s = some (if cstr s = [] then c1 else 0, s) := by
    rw [utf8asciiStr_eq_filterAfterMap c1 s h0]
    unfold filterAfterMap
    rw [decodeBytes_ascii (cstr s) hascii c1]
    show some (_, emitted (cstr s) ++ 0 :: s.drop ((emitted (cstr s)).length + 1)) = _
    rw [emitted_eq_self (cstr s) (cstr_ne_zero s), cstr_drop s h0]
  refine ⟨heq, ?_⟩
  rw [heq]
  rfl

/-- Instance of `utf8asciiStr_ascii_noop`: the buffer H i 0 x under a pending 0xC3. -/
theorem utf8asciiStr_ascii_noop_witness :
    (0 ∈ [0x48, 0x69, 0, 0x78] ∧ ∀ b ∈ cstr [0x48, 0x69, 0, 0x78], b ≤ 0x7F) ∧
    utf8asciiStr 0xC3 [0x48, 0x69, 0, 0x78] = some (0, [0x48, 0x69, 0, 0x78]) :=
  ⟨⟨by decide, by decide⟩,
    (utf8asciiStr_ascii_noop 0xC3 [0x48, 0x69, 0, 0x78] (by decide) (by decide)).1⟩

/-- Claim C10. Buffer never grows: on a buffer that holds a 0 byte, whatever the
register holds, the in-place conversion has a result exactly when the per-byte
decoder has one on each byte before the first 0, and the number of bytes before
the first 0 of the buffer it returns is at most that number in the input. -/
theorem utf8asciiStr_never_grows (c1 : Nat) (s : List Nat) (h0 : 0 ∈ s) :
    ((utf8asciiStr c1 s).isSome ↔ (decodeBytes c1 (cstr s)).isSome) ∧
    ∀ c1' s', utf8asciiStr c1 s = some (c1', s') → strlen s' ≤ strlen s := by
  have heq := utf8asciiStr_eq_filterAfterMap c1 s h0
  constructor
  · rw [heq]
    unfold filterAfterMap
    cases decodeBytes c1 (cstr s) with
    | none => simp
    | some r => simp
  · intro c1' s' hres
    rw [heq] at hres
    unfold filterAfterMap at hres
    cases hd : decodeBytes c1 (cstr s) with
    | none => simp [hd] at hres
    | some r =>
      obtain ⟨outs, c2⟩ := r
      simp only [hd, Option.some.injEq, Prod.mk.injEq] at hres
      obtain ⟨_, hs'⟩ := hres
      have hlen := decodeBytes_length (cstr s) c1 outs c2 hd
      have hle := emitted_length_le outs
      unfold strlen
      rw [← hs', cstr_append_zero _ _ (emitted_ne_zero outs)]
      omega

/-- Instance of `utf8asciiStr_never_grows` on the buffer H i 0xC3 0xA9 0, whose
string shrinks from four bytes to three. -/
theorem utf8asciiStr_never_grows_witness :
    0 ∈ [0x48, 0x69, 0xC3, 0xA9, 0] ∧
    utf8asciiStr 0 [0x48, 0x69, 0xC3, 0xA9, 0] = some (0xA9, [0x48, 0x69, 0x65, 0, 0]) ∧
    strlen [0x48, 0x69, 0x65, 0, 0] ≤ strlen [0x48, 0x69, 0xC3, 0xA9, 0] :=
  ⟨by decide, by decide,
    (utf8asciiStr_never_grows 0 [0x48, 0x69, 0xC3, 0xA9, 0] (by decide)).2
      0xA9 [0x48, 0x69, 0x65, 0, 0] (by decide)⟩

/-! ## Suppression and the register -/

/-- A byte of 0x80 or more is suppressed, and remembered, when the register is
none of 0xC2 and 0xC3 and the pair is not 0x82 followed by 0xAC. -/
theorem utf8ascii_other (c1 b : Nat) (hb : 0x80 ≤ b) (h2 : c1 ≠ 0xC2) (h3 : c1 ≠ 0xC3)
    (h82 : ¬ (c1 = 0x82 ∧ b = 0xAC)) :
    utf8ascii c1 b = some (0, b) := by
  have hb' : ¬ b ≤ 0x7F := by omega
  unfold utf8ascii
  by_cases h : c1 = 0x82
  · have : b ≠ 0xAC := fun hb2 => h82 ⟨h, hb2⟩
    simp [hb', h, this]
  · simp [hb', h2, h3, h]

/-- The register after a call: 0 after a byte of at most 0x7F, the byte itself
after any other byte. -/
theorem utf8ascii_register_after (c1 b r c1' : Nat) (h : utf8ascii c1 b = some (r, c1')) :
    c1' = if b ≤ 0x7F then 0 else b := by
  unfold utf8ascii at h
  by_cases h1 : b ≤ 0x7F
  · simp only [h1, if_true, Option.some.injEq, Prod.mk.injEq] at h
    simp [h1, h.2.symm]
  · simp only [h1, if_false] at h
    rw [if_neg h1]
    split_ifs at h with h2 h3 h4 h5
    · simp only [Option.some.injEq, Prod.mk.injEq] at h; exact h.2.symm
    · split at h
      · simp only [Option.some.injEq, Prod.mk.injEq] at h; exact h.2.symm
      · cases h
    · simp only [Option.some.injEq, Prod.mk.injEq] at h; exact h.2.symm
    · simp only [Option.some.injEq, Prod.mk.injEq] at h; exact h.2.symm
    · simp only [Option.some.injEq, Prod.mk.injEq] at h; exact h.2.symm

/-- Claim C11. Suppression of everything else: an input byte `b` with `0x80 ≤ b`
gives 0 whenever the register is not 0xC2, not 0xC3, and not 0x82 together with
the input 0xAC; in particular from the reset state every byte of 0x80 or more
gives 0. -/
theorem utf8ascii_suppressed (c1 b : Nat) (hb : 0x80 ≤ b) (h2 : c1 ≠ 0xC2)
    (h3 : c1 ≠ 0xC3) (h82 : ¬ (c1 = 0x82 ∧ b = 0xAC)) :
    utf8ascii c1 b = some (0, b) ∧ utf8ascii 0 b = some (0, b) :=
  ⟨utf8ascii_other c1 b hb h2 h3 h82,
    utf8ascii_other 0 b hb (by decide) (by decide) (by intro h; exact absurd h.1 (by decide))⟩

/-- Instance of `utf8ascii_suppressed`: the lead byte 0xE2 under the register 0x82. -/
theorem utf8ascii_suppressed_witness :
    (0x80 ≤ 0xE2 ∧ 0x82 ≠ 0xC2 ∧ 0x82 ≠ 0xC3 ∧ ¬ (0x82 = 0x82 ∧ 0xE2 = 0xAC)) ∧
    utf8ascii 0x82 0xE2 = some (0, 0xE2) ∧ utf8ascii 0 0xE2 = some (0, 0xE2) :=
  ⟨by decide, utf8ascii_suppressed 0x82 0xE2 (by decide) (by decide) (by decide) (by decide)⟩

/-- Claim C12. Register update: for an input byte `b` with `0x80 ≤ b`, whatever the
register holds, the per-byte decoder returns unless the table is read past its
end (register 0xC3, input above 0xC0), and whenever it returns the register
holds `b`; so it does after the tilde branch, the table branch, the Euro branch
and a suppression. -/
theorem utf8ascii_register_update (c1 b : Nat) (hb : 0x80 ≤ b) :
    (¬ (c1 = 0xC3 ∧ 0xC0 < b) → ∃ r, utf8ascii c1 b = some (r, b)) ∧
    (∀ r c1', utf8ascii c1 b = some (r, c1') → c1' = b) ∧
    utf8ascii 0xC2 b = some ('~'.toNat, b) ∧
    (b ≤ 0xC0 → ∃ r, lut_C3[b - 128]? = some r ∧ utf8ascii 0xC3 b = some (r, b)) ∧
    utf8ascii 0x82 b = some (if b = 0xAC then 'E'.toNat else 0, b) ∧
    (c1 ≠ 0xC2 → c1 ≠ 0xC3 → c1 ≠ 0x82 → utf8ascii c1 b = some (0, b)) := by
  have hb' : ¬ b ≤ 0x7F := by omega
  have hreg : ∀ r c1', utf8ascii c1 b = some (r, c1') → c1' = b := by
    intro r c1' h
    have := utf8ascii_register_after c1 b r c1' h
    simpa [hb'] using this
  refine ⟨?_, hreg, ?_, ?_, ?_, ?_⟩
  · intro hno
    cases hu : utf8ascii c1 b with
    | none => exact absurd ((utf8ascii_eq_none_iff c1 b).mp hu) hno
    | some p =>
      obtain ⟨r, c1'⟩ := p
      rw [hreg r c1' hu]
      exact ⟨r, rfl⟩
  · simp [utf8ascii, hb']
  · intro hle
    have hlen : lut_C3.length = 65 := by decide
    have hidx : b - 128 < lut_C3.length := by omega
    refine ⟨lut_C3[b - 128], List.getElem?_eq_getElem hidx, ?_⟩
    simp [utf8ascii, hb', List.getElem?_eq_getElem hidx]
  · by_cases h : b = 0xAC
    · subst h; decide
    · simp [utf8ascii, hb', h]
  · intro h2 h3 h82
    exact utf8ascii_other c1 b hb h2 h3 (fun h => h82 h.1)

/-- Instance of `utf8ascii_register_update`: the trailing byte 0xA9 under the
register 0xC3 leaves 0xA9 in the register. -/
theorem utf8ascii_register_update_witness :
    0x80 ≤ 0xA9 ∧ ∃ r, utf8ascii 0xC3 0xA9 = some (r, 0xA9) :=
  ⟨by decide, (utf8ascii_register_update 0xC3 0xA9 (by decide)).1 (by decide)⟩

/-- Claim C14. State leaks between independent strings: the in-place conversion
returns the register as the per-byte calls left it, with no reset.  Converting
A = 0xC3 0 from the reset state leaves 0xC3 in the register; converting
B = 0xA9 0 right after that gives the string e, while converting B from the reset
state gives the empty string. -/
theorem utf8asciiStr_state_leak :
    utf8asciiStr 0 [0xC3, 0] = some (0xC3, [0, 0]) ∧
    utf8asciiStr 0xC3 [0xA9, 0] = some (0xA9, ['e'.toNat, 0]) ∧
    utf8asciiStr 0 [0xA9, 0] = some (0xA9, [0, 0]) ∧
    (∃ A B : List Nat, 0 ∈ A ∧ 0 ∈ B ∧
      ∃ c1 A', utf8asciiStr 0 A = some (c1, A') ∧
        (utf8asciiStr c1 B).map (fun r => cstr r.2)
          ≠ (utf8asciiStr 0 B).map (fun r => cstr r.2)) := by
  refine ⟨by decide, by decide, by decide, [0xC3, 0], [0xA9, 0], by decide, by decide,
    0xC3, [0, 0], by decide, by decide⟩

/-! ## The frame of the in-place conversion -/

/-- The string of a buffer that holds a 0 byte is shorter than the buffer. -/
theorem strlen_lt_length (s : List Nat) (h0 : 0 ∈ s) : strlen s < s.length := by
  obtain ⟨rest, hs⟩ := cstr_split s h0
  have : s.length = (cstr s).length + (rest.length + 1) := by
    conv_lhs => rw [hs]
    simp
  unfold strlen
  omega

/-- The result of the in-place conversion, when it has one, laid out: the stored
bytes, a 0, and the bytes of the input buffer behind that position. -/
theorem utf8asciiStr_some_layout (c1 : Nat) (s : List Nat) (h0 : 0 ∈ s) (c1' : Nat)
    (s' : List Nat) (h : utf8asciiStr c1 s = some (c1', s')) :
    ∃ outs, decodeBytes c1 (cstr s) = some (outs, c1') ∧
      s' = emitted outs ++ 0 :: s.drop ((emitted outs).length + 1) ∧
      strlen s' = (emitted outs).length ∧ (emitted outs).length ≤ strlen s := by
  rw [utf8asciiStr_eq_filterAfterMap c1 s h0] at h
  unfold filterAfterMap at h
  cases hd : decodeBytes c1 (cstr s) with
  | none => simp [hd] at h
  | some r =>
    obtain ⟨outs, c2⟩ := r
    simp only [hd, Option.some.injEq, Prod.mk.injEq] at h
    obtain ⟨hc, hs'⟩ := h
    subst hc
    refine ⟨outs, rfl, hs'.symm, ?_, ?_⟩
    · unfold strlen
      rw [← hs', cstr_append_zero _ _ (emitted_ne_zero outs)]
    · have hlen := decodeBytes_length (cstr s) c1 outs c2 hd
      have hle := emitted_length_le outs
      unfold strlen
      omega

/-- The in-place conversion has a result exactly when the per-byte decoder has
one on each byte before the first 0. -/
theorem utf8asciiStr_isSome_iff (c1 : Nat) (s : List Nat) (h0 : 0 ∈ s) :
    (utf8asciiStr c1 s).isSome ↔ (decodeBytes c1 (cstr s)).isSome := by
  rw [utf8asciiStr_eq_filterAfterMap c1 s h0]
  unfold filterAfterMap
  cases decodeBytes c1 (cstr s) with
  | none => simp
  | some r => simp

/-- Claim C20. Frame of the in-place conversion: on a buffer that holds a 0 byte,
whatever the register holds, the conversion has a result exactly when the
per-byte decoder has one on each byte before the first 0; the buffer it returns
has the size of the input buffer, holds a 0 at the new terminator position, and
holds at every position strictly after the new terminator the byte that was
there before the call.  The new terminator is at or before the old one, so the
old terminator and everything after it are among the bytes left in place. -/
theorem utf8asciiStr_frame (c1 : Nat) (s : List Nat) (h0 : 0 ∈ s) :
    ((utf8asciiStr c1 s).isSome ↔ (decodeBytes c1 (cstr s)).isSome) ∧
    ∀ c1' s', utf8asciiStr c1 s = some (c1', s') →
      s'.length = s.length ∧
      s'[strlen s']? = some 0 ∧
      strlen s' ≤ strlen s ∧
      (∀ j, strlen s' < j → s'[j]? = s[j]?) ∧
      s'.drop (strlen s + 1) = s.drop (strlen s + 1) := by
  refine ⟨utf8asciiStr_isSome_iff c1 s h0, ?_⟩
  intro c1' s' h
  obtain ⟨outs, _, hs', hstr, hle⟩ := utf8asciiStr_some_layout c1 s h0 c1' s' h
  have hlt := strlen_lt_length s h0
  have hframe : ∀ j, (emitted outs).length < j → s'[j]? = s[j]? := by
    intro j hj
    rw [hs', List.getElem?_append_right (by omega)]
    obtain ⟨d, hd⟩ : ∃ d, j - (emitted outs).length = d + 1 := ⟨j - (emitted outs).length - 1, by omega⟩
    rw [hd, List.getElem?_cons_succ, List.getElem?_drop]
    congr 1
    omega
  refine ⟨?_, ?_, ?_, ?_, ?_⟩
  · rw [hs']
    simp
    omega
  · rw [hstr, hs']
    exact getElem?_append_length _ _ _
  · omega
  · intro j hj
    exact hframe j (by omega)
  · apply List.ext_getElem?
    intro n
    rw [List.getElem?_drop, List.getElem?_drop]
    exact hframe _ (by omega)

/-- Instance of `utf8asciiStr_frame` on the buffer H i 0xC3 0xA9 0 x: the bytes
0xA9 0 x behind the new terminator are those of the input. -/
theorem utf8asciiStr_frame_witness :
    0 ∈ [0x48, 0x69, 0xC3, 0xA9, 0, 0x78] ∧
    utf8asciiStr 0 [0x48, 0x69, 0xC3, 0xA9, 0, 0x78]
      = some (0xA9, [0x48, 0x69, 0x65, 0, 0, 0x78]) ∧
    [0x48, 0x69, 0x65, 0, 0, 0x78].length = [0x48, 0x69, 0xC3, 0xA9, 0, 0x78].length ∧
    [0x48, 0x69, 0x65, 0, 0, 0x78].drop (strlen [0x48, 0x69, 0xC3, 0xA9, 0, 0x78] + 1)
      = [0x48, 0x69, 0xC3, 0xA9, 0, 0x78].drop (strlen [0x48, 0x69, 0xC3, 0xA9, 0, 0x78] + 1) :=
  ⟨by decide, by decide,
    ((utf8asciiStr_frame 0 [0x48, 0x69, 0xC3, 0xA9, 0, 0x78] (by decide)).2
      0xA9 [0x48, 0x69, 0x65, 0, 0, 0x78] (by decide)).1,
    ((utf8asciiStr_frame 0 [0x48, 0x69, 0xC3, 0xA9, 0, 0x78] (by decide)).2
      0xA9 [0x48, 0x69, 0x65, 0, 0, 0x78] (by decide)).2.2.2.2⟩

/-! ## The indices of the loop -/

/-- The recorded loop computes the result of the loop. -/
theorem utf8asciiLoopTrace_result (n : Nat) :
    ∀ (s : List Nat) (c1 i k : Nat),
      (utf8asciiLoopTrace n s c1 i k).2 = utf8asciiLoop n s c1 i k := by
  induction n with
  | zero => intro s c1 i k; rfl
  | succ n ih =>
    intro s c1 i k
    unfold utf8asciiLoopTrace utf8asciiLoop
    cases s[i]? with
    | none => rfl
    | some b =>
      by_cases hb : b = 0
      · simp only [hb, if_true]
        cases writeByte s k 0 with
        | none => rfl
        | some s' => rfl
      · simp only [hb, if_false]
        cases utf8ascii c1 b with
        | none => rfl
        | some r =>
          obtain ⟨c, c1'⟩ := r
          by_cases hc : c = 0
          · simp only [hc, ne_eq, not_true_eq_false, if_false]
            exact ih _ _ _ _
          · simp only [hc, ne_eq, not_false_eq_true, if_true]
            cases writeByte s k c with
            | none => rfl
            | some s' => exact ih _ _ _ _

/-- The recorded loop, the loop condition reading 0. -/
theorem utf8asciiLoopTrace_stop (n : Nat) (s s' : List Nat) (c1 i k : Nat)
    (hr : s[i]? = some 0) (hw : writeByte s k 0 = some s') :
    (utf8asciiLoopTrace (n + 1) s c1 i k).1 = [(i, k)] := by
  simp [utf8asciiLoopTrace, hr, hw]

/-- The recorded loop, an iteration on which the per-byte decoder has no result. -/
theorem utf8asciiLoopTrace_fault (n : Nat) (s : List Nat) (c1 i k b : Nat)
    (hr : s[i]? = some b) (hb : b ≠ 0) (hu : utf8ascii c1 b = none) :
    (utf8asciiLoopTrace (n + 1) s c1 i k).1 = [(i, k)] := by
  simp [utf8asciiLoopTrace, hr, hb, hu]

/-- The recorded loop, an iteration that writes nothing. -/
theorem utf8asciiLoopTrace_skip (n : Nat) (s : List Nat) (c1 i k b c1' : Nat)
    (hr : s[i]? = some b) (hb : b ≠ 0) (hu : utf8ascii c1 b = some (0, c1')) :
    (utf8asciiLoopTrace (n + 1) s c1 i k).1
      = (i, k) :: (utf8asciiLoopTrace n s c1' (i + 1) k).1 := by
  simp [utf8asciiLoopTrace, hr, hb, hu]

/-- The recorded loop, an iteration that writes at `k`. -/
theorem utf8asciiLoopTrace_emit (n : Nat) (s s' : List Nat) (c1 i k b c c1' : Nat)
    (hr : s[i]? = some b) (hb : b ≠ 0) (hu : utf8ascii c1 b = some (c, c1'))
    (hc : c ≠ 0) (hw : writeByte s k c = some s') :
    (utf8asciiLoopTrace (n + 1) s c1 i k).1
      = (i, k) :: (utf8asciiLoopTrace n s' c1' (i + 1) (k + 1)).1 := by
  simp [utf8asciiLoopTrace, hr, hb, hu, hc, hw]

/-- The last element of a list with one more element in front. -/
theorem getLast?_cons_of_getLast? {α : Type} (x y : α) (l : List α)
    (h : l.getLast? = some y) : (x :: l).getLast? = some y := by
  cases l with
  | nil => simp at h
  | cons z l => simpa [List.getLast?_cons_cons] using h

/-- The indices of the loop on a buffer `front ++ mid ++ pre ++ 0 :: rest` entered
with the write index at the end of `front` and the read index at the end of
`mid`, `pre` being zero-free.  Every recorded pair has its write index between
the first write index and its read index, and its read index between the first
read index and the position of the 0; the record starts with the entry pair;
and when the per-byte decoder has a result on all of `pre` the record ends at
the position of the 0, the write index advanced by the number of stored bytes. -/
theorem utf8asciiLoopTrace_spec (pre : List Nat) (hpre : ∀ b ∈ pre, b ≠ 0) :
    ∀ (front mid rest : List Nat) (c1 n i k : Nat), pre.length + 1 ≤ n →
      i = front.length + mid.length → k = front.length →
      (∀ p ∈ (utf8asciiLoopTrace n (front ++ (mid ++ (pre ++ 0 :: rest))) c1 i k).1,
        k ≤ p.2 ∧ p.2 ≤ p.1 ∧ i ≤ p.1 ∧ p.1 ≤ i + pre.length) ∧
      (utf8asciiLoopTrace n (front ++ (mid ++ (pre ++ 0 :: rest))) c1 i k).1.head?
        = some (i, k) ∧
      (∀ outs c1', decodeBytes c1 pre = some (outs, c1') →
        (utf8asciiLoopTrace n (front ++ (mid ++ (pre ++ 0 :: rest))) c1 i k).1.getLast?
          = some (i + pre.length, k + (emitted outs).length)) := by
  induction pre with
  | nil =>
    intro front mid rest c1 n i k hn hi hk
    obtain ⟨m, rfl⟩ : ∃ m, n = m + 1 := ⟨n - 1, by omega⟩
    have hread := getElem?_front_mid front mid 0 rest i hi
    rw [List.nil_append]
    have htr : (utf8asciiLoopTrace (m + 1) (front ++ (mid ++ 0 :: rest)) c1 i k).1
        = [(i, k)] := by
      cases mid with
      | nil =>
        rw [List.nil_append] at hread ⊢
        exact utf8asciiLoopTrace_stop m _ _ c1 i k hread (writeByte_front front _ 0 0 k hk)
      | cons x mid =>
        rw [List.cons_append] at hread ⊢
        exact utf8asciiLoopTrace_stop m _ _ c1 i k hread (writeByte_front front _ x 0 k hk)
    rw [htr]
    refine ⟨?_, rfl, ?_⟩
    · intro p hp
      simp only [List.mem_singleton] at hp
      subst hp
      simp only [List.length_nil]
      omega
    · intro outs c1' hd
      simp only [decodeBytes, Option.some.injEq, Prod.mk.injEq] at hd
      rw [← hd.1]
      simp [emitted]
  | cons b pre ih =>
    intro front mid rest c1 n i k hn hi hk
    obtain ⟨m, rfl⟩ : ∃ m, n = m + 1 := ⟨n - 1, by simp at hn; omega⟩
    have hb : b ≠ 0 := hpre b (by simp)
    have hpre' : ∀ x ∈ pre, x ≠ 0 := fun x hx => hpre x (by simp [hx])
    have hm : pre.length + 1 ≤ m := by simp at hn; omega
    have hread := getElem?_front_mid front mid b (pre ++ 0 :: rest) i hi
    rw [List.cons_append]
    cases hu : utf8ascii c1 b with
    | none =>
      rw [utf8asciiLoopTrace_fault m _ c1 i k b hread hb hu]
      refine ⟨?_, rfl, ?_⟩
      · intro p hp
        simp only [List.mem_singleton] at hp
        subst hp
        simp only [List.length_cons]
        omega
      · intro outs c1' hd
        rw [decodeBytes_cons_none c1 b pre hu] at hd
        cases hd
    | some r =>
      obtain ⟨c, c1'⟩ := r
      -- the shape of the record after this iteration, in terms of the rest of the loop
      have key : ∀ (tr : List (Nat × Nat)) (k' : Nat), k ≤ k' → k' ≤ k + 1 →
          k' = k + (emitted [c]).length →
          ((∀ p ∈ tr, k' ≤ p.2 ∧ p.2 ≤ p.1 ∧ i + 1 ≤ p.1 ∧ p.1 ≤ i + 1 + pre.length) ∧
            tr.head? = some (i + 1, k') ∧
            (∀ outs c2, decodeBytes c1' pre = some (outs, c2) →
              tr.getLast? = some (i + 1 + pre.length, k' + (emitted outs).length))) →
          ((∀ p ∈ (i, k) :: tr, k ≤ p.2 ∧ p.2 ≤ p.1 ∧ i ≤ p.1 ∧
              p.1 ≤ i + (b :: pre).length) ∧
            ((i, k) :: tr).head? = some (i, k) ∧
            (∀ outs c2, decodeBytes c1 (b :: pre) = some (outs, c2) →
              ((i, k) :: tr).getLast?
                = some (i + (b :: pre).length, k + (emitted outs).length))) := by
        intro tr k' hk1 hk2 hk3 ⟨hall, _, hlast⟩
        refine ⟨?_, rfl, ?_⟩
        · intro p hp
          rcases List.mem_cons.mp hp with hp | hp
          · subst hp
            simp only [List.length_cons]
            omega
          · have := hall p hp
            simp only [List.length_cons]
            omega
        · intro outs c2 hd
          rw [decodeBytes_cons_some c1 b c c1' pre hu] at hd
          cases hd' : decodeBytes c1' pre with
          | none => simp [hd'] at hd
          | some q =>
            obtain ⟨outs', c3⟩ := q
            simp only [hd', Option.map_some', Option.some.injEq, Prod.mk.injEq] at hd
            have hl := hlast outs' c3 hd'
            apply getLast?_cons_of_getLast?
            rw [hl, ← hd.1]
            have : (emitted (c :: outs')).length
                = (emitted [c]).length + (emitted outs').length := by
              unfold emitted
              by_cases hc : c = 0 <;> simp [hc, Nat.add_comm]
            rw [this, List.length_cons, hk3]
            congr 2 <;> omega
      by_cases hc : c = 0
      · subst hc
        rw [utf8asciiLoopTrace_skip m _ c1 i k b c1' hread hb hu]
        have h := ih hpre' front (mid ++ [b]) rest c1' m (i + 1) k hm (by simp [hi]; omega) hk
        simp only [List.append_assoc, List.singleton_append] at h
        exact key _ k (by omega) (by omega) (by simp [emitted]) h
      · have he : (emitted [c]).length = 1 := by simp [emitted, hc]
        cases mid with
        | nil =>
          rw [List.nil_append] at hread ⊢
          rw [utf8asciiLoopTrace_emit m _ _ c1 i k b c c1' hread hb hu hc
            (writeByte_front front _ b c k hk)]
          have h := ih hpre' (front ++ [c]) [] rest c1' m (i + 1) (k + 1) hm
            (by simp [hi]) (by simp [hk])
          simp only [List.append_assoc, List.singleton_append, List.nil_append] at h
          exact key _ (k + 1) (by omega) (by omega) (by omega) h
        | cons x mid =>
          rw [List.cons_append] at hread ⊢
          rw [utf8asciiLoopTrace_emit m _ _ c1 i k b c c1' hread hb hu hc
            (writeByte_front front _ x c k hk)]
          have h := ih hpre' (front ++ [c]) (mid ++ [b]) rest c1' m (i + 1) (k + 1) hm
            (by simp [hi]; omega) (by simp [hk])
          simp only [List.append_assoc, List.singleton_append] at h
          exact key _ (k + 1) (by omega) (by omega) (by omega) h

/-- Claim C15. Loop invariant of the in-place conversion: on a buffer that holds a
0 byte, whatever the register holds, the loop starts at read index 0 and write
index 0, and at every evaluation of the loop condition the write index `k` is at
most the read index `i`, which is at most the position of the original
terminator and inside the buffer.  So every write `s[k]` is at a position
already read and inside the buffer; and when the conversion returns, the last
evaluation is at the original terminator and the final `s[k] = 0` is written
at the new terminator position, at or before the original one. -/
theorem utf8asciiStr_write_le_read (c1 : Nat) (s : List Nat) (h0 : 0 ∈ s) :
    (utf8asciiLoopTrace (s.length + 1) s c1 0 0).2 = utf8asciiStr c1 s ∧
    (utf8asciiLoopTrace (s.length + 1) s c1 0 0).1.head? = some (0, 0) ∧
    (∀ p ∈ (utf8asciiLoopTrace (s.length + 1) s c1 0 0).1,
      p.2 ≤ p.1 ∧ p.1 ≤ strlen s ∧ p.1 < s.length) ∧
    (∀ c1' s', utf8asciiStr c1 s = some (c1', s') →
      (utf8asciiLoopTrace (s.length + 1) s c1 0 0).1.getLast?
        = some (strlen s, strlen s') ∧
      strlen s' ≤ strlen s) := by
  obtain ⟨rest, hs⟩ := cstr_split s h0
  have hlt := strlen_lt_length s h0
  have hlen : (cstr s).length + 1 ≤ s.length + 1 := by
    unfold strlen at hlt
    omega
  have h := utf8asciiLoopTrace_spec (cstr s) (cstr_ne_zero s) [] [] rest c1 (s.length + 1) 0 0
    hlen (by simp) (by simp)
  simp only [List.nil_append] at h
  rw [← hs] at h
  obtain ⟨hall, hhead, hlast⟩ := h
  refine ⟨utf8asciiLoopTrace_result _ _ _ _ _, hhead, ?_, ?_⟩
  · intro p hp
    have := hall p hp
    unfold strlen at hlt ⊢
    omega
  · intro c1' s' hres
    obtain ⟨outs, hd, _, hstr, hle⟩ := utf8asciiStr_some_layout c1 s h0 c1' s' hres
    refine ⟨?_, by omega⟩
    rw [hlast outs c1' hd, hstr]
    simp [strlen]

/-- Instance of `utf8asciiStr_write_le_read` on the buffer H i 0xC3 0xA9 0: the
five evaluations of the loop condition, the last at the terminator with the
write index 3. -/
theorem utf8asciiStr_write_le_read_witness :
    0 ∈ [0x48, 0x69, 0xC3, 0xA9, 0] ∧
    (utf8asciiLoopTrace 6 [0x48, 0x69, 0xC3, 0xA9, 0] 0 0 0).1
      = [(0, 0), (1, 1), (2, 2), (3, 2), (4, 3)] ∧
    (utf8asciiLoopTrace ([0x48, 0x69, 0xC3, 0xA9, 0].length + 1)
        [0x48, 0x69, 0xC3, 0xA9, 0] 0 0 0).1.getLast?
      = some (strlen [0x48, 0x69, 0xC3, 0xA9, 0], strlen [0x48, 0x69, 0x65, 0, 0]) :=
  ⟨by decide, by decide,
    ((utf8asciiStr_write_le_read 0 [0x48, 0x69, 0xC3, 0xA9, 0] (by decide)).2.2.2
      0xA9 [0x48, 0x69, 0x65, 0, 0] (by decide)).1⟩

/-! ## The caller `displayText` -/

/-- A prefix of a string holds no 0 byte. -/
theorem cstr_take_ne_zero (str : List Nat) (n : Nat) : ∀ b ∈ (cstr str).take n, b ≠ 0 :=
  fun b hb => cstr_ne_zero str b (List.mem_of_mem_take hb)

/-- The buffer of `displayText` before the conversion: the first 25 bytes of the
string, a 0, and 0 bytes up to the 26 of the array. -/
theorem displayTextBuf_eq (str : List Nat) :
    displayTextBuf str
      = some ((cstr str).take 25 ++ 0 :: List.replicate (25 - (cstr str).length) 0) := by
  have hsz : 128 / CHAR_WIDTH + 1 = 26 := rfl
  unfold displayTextBuf strncpy
  rw [hsz]
  show writeByte _ 25 0 = _
  by_cases hL : (cstr str).length ≤ 25
  · have h1 : (cstr str).take 26 = cstr str := List.take_of_length_le (by omega)
    have h2 : (cstr str).take 25 = cstr str := List.take_of_length_le hL
    have h3 : 26 - (cstr str).length = (25 - (cstr str).length) + 1 := by omega
    rw [h1, h2, h3, List.replicate_succ', ← List.append_assoc]
    rw [writeByte_front (cstr str ++ List.replicate (25 - (cstr str).length) 0) [] 0 0 25
      (by simp; omega)]
    rw [List.append_assoc, ← List.replicate_succ', List.replicate_succ]
  · have hL' : 25 < (cstr str).length := by omega
    have h1 : 26 - (cstr str).length = 0 := by omega
    have h2 : 25 - (cstr str).length = 0 := by omega
    have h3 : (cstr str).take 26 = (cstr str).take 25 ++ [(cstr str)[25]] := by
      rw [List.take_succ, List.getElem?_eq_getElem hL']
      rfl
    rw [h1, h2, h3, List.replicate_zero, List.append_nil]
    rw [writeByte_front ((cstr str).take 25) [] _ 0 25 (by simp; omega)]

/-- Claim C16. The caller `displayText` truncates before converting: for every
input string the buffer handed to the in-place conversion has 26 bytes and holds
the first min(length, 25) bytes of the input followed by a 0; the conversion
has a result exactly when the per-byte decoder has one on each of those bytes,
and the buffer then passed to the draw call has 26 bytes and holds a string of
at most 25 bytes, no longer than the truncated input. -/
theorem displayText_truncates (c1 : Nat) (str : List Nat) :
    (∃ buf, displayTextBuf str = some buf ∧
      displayText c1 str = utf8asciiStr c1 buf ∧
      buf.length = 26 ∧
      buf.take (min (strlen str) 25 + 1) = (cstr str).take (min (strlen str) 25) ++ [0] ∧
      cstr buf = (cstr str).take 25 ∧
      strlen buf = min (strlen str) 25) ∧
    ((displayText c1 str).isSome ↔ (decodeBytes c1 ((cstr str).take 25)).isSome) ∧
    (∀ c1' buf', displayText c1 str = some (c1', buf') →
      buf'.length = 26 ∧ strlen buf' ≤ min (strlen str) 25 ∧ strlen buf' ≤ 25) := by
  have hbuf := displayTextBuf_eq str
  have hcstr : cstr ((cstr str).take 25 ++ 0 :: List.replicate (25 - (cstr str).length) 0)
      = (cstr str).take 25 := cstr_append_zero _ _ (cstr_take_ne_zero str 25)
  have hdt : displayText c1 str = utf8asciiStr c1
      ((cstr str).take 25 ++ 0 :: List.replicate (25 - (cstr str).length) 0) := by
    unfold displayText
    rw [hbuf]
  have h0 : 0 ∈ (cstr str).take 25 ++ 0 :: List.replicate (25 - (cstr str).length) 0 := by
    simp
  have hlen : ((cstr str).take 25 ++ 0 :: List.replicate (25 - (cstr str).length) 0).length
      = 26 := by
    simp
    omega
  have hstrlen : strlen ((cstr str).take 25 ++ 0 :: List.replicate (25 - (cstr str).length) 0)
      = min (strlen str) 25 := by
    unfold strlen
    rw [hcstr]
    simp [Nat.min_comm]
  refine ⟨⟨_, hbuf, hdt, hlen, ?_, hcstr, hstrlen⟩, ?_, ?_⟩
  · have hmin : min (strlen str) 25 = ((cstr str).take 25).length := by
      unfold strlen
      simp [Nat.min_comm]
    have htake : (cstr str).take (min (strlen str) 25) = (cstr str).take 25 := by
      unfold strlen
      rw [List.take_eq_take]
      simp
      omega
    rw [htake, hmin]
    have : (cstr str).take 25 ++ 0 :: List.replicate (25 - (cstr str).length) 0
        = ((cstr str).take 25 ++ [0]) ++ List.replicate (25 - (cstr str).length) 0 := by simp
    rw [this, List.take_append_eq_append_take]
    simp
  · rw [hdt, utf8asciiStr_isSome_iff c1 _ h0, hcstr]
  · intro c1' buf' hres
    rw [hdt] at hres
    obtain ⟨outs, _, hs', hstr, hle⟩ := utf8asciiStr_some_layout c1 _ h0 c1' buf' hres
    rw [hstrlen] at hle
    have hl : buf'.length = 26 := by
      rw [hs']
      simp
      omega
    exact ⟨hl, by omega, by omega⟩

/-- Instance of `displayText_truncates` on a string of 27 bytes, 24 letters a
followed by 0xC3 0xA9 b: the cut falls between 0xC3 and 0xA9, and the string
passed on is the 24 letters. -/
theorem displayText_truncates_witness :
    displayText 0 (List.replicate 24 0x61 ++ [0xC3, 0xA9, 0x62, 0])
      = some (0xC3, List.replicate 24 0x61 ++ [0, 0]) ∧
    strlen (List.replicate 24 0x61 ++ [0, 0]) ≤ 25 :=
  ⟨by decide,
    ((displayText_truncates 0 (List.replicate 24 0x61 ++ [0xC3, 0xA9, 0x62, 0])).2.2
      0xC3 (List.replicate 24 0x61 ++ [0, 0]) (by decide)).2.2⟩

/-! ## Conversion of UTF-8 encoded code points -/

/-- Successive calls on two lists of bytes, one after the other. -/
theorem decodeBytes_append (a : List Nat) :
    ∀ (c1 : Nat) (b outs1 : List Nat) (c2 : Nat), decodeBytes c1 a = some (outs1, c2) →
      decodeBytes c1 (a ++ b) = (decodeBytes c2 b).map (fun r => (outs1 ++ r.1, r.2)) := by
  induction a with
  | nil =>
    intro c1 b outs1 c2 h
    simp only [decodeBytes, Option.some.injEq, Prod.mk.injEq] at h
    rw [← h.1, ← h.2, List.nil_append]
    cases decodeBytes c1 b with
    | none => rfl
    | some r => rfl
  | cons x a ih =>
    intro c1 b outs1 c2 h
    cases hu : utf8ascii c1 x with
    | none => rw [decodeBytes_cons_none c1 x a hu] at h; cases h
    | some p =>
      obtain ⟨r, c1'⟩ := p
      rw [decodeBytes_cons_some c1 x r c1' a hu] at h
      rw [List.cons_append, decodeBytes_cons_some c1 x r c1' (a ++ b) hu]
      cases hd : decodeBytes c1' a with
      | none => simp [hd] at h
      | some q =>
        obtain ⟨o, c3⟩ := q
        simp only [hd, Option.map_some', Option.some.injEq, Prod.mk.injEq] at h
        rw [ih c1' b o c3 hd, ← h.1, ← h.2]
        cases decodeBytes c3 b with
        | none => rfl
        | some r => rfl

/-- The in-place conversion of zero-free bytes followed by a 0, when the per-byte
decoder has a result on each of them: the string returned is the stored bytes. -/
theorem utf8asciiStr_of_decodeBytes (c1 : Nat) (bytes rest outs : List Nat) (c1' : Nat)
    (hz : ∀ b ∈ bytes, b ≠ 0) (hd : decodeBytes c1 bytes = some (outs, c1')) :
    ∃ s', utf8asciiStr c1 (bytes ++ 0 :: rest) = some (c1', s') ∧ cstr s' = emitted outs := by
  have h0 : 0 ∈ bytes ++ 0 :: rest := by simp
  rw [utf8asciiStr_eq_filterAfterMap c1 _ h0]
  unfold filterAfterMap
  rw [cstr_append_zero bytes rest hz, hd]
  exact ⟨_, rfl, cstr_append_zero _ _ (emitted_ne_zero outs)⟩

/-- Successive calls on a lead byte and one trailing byte. -/
theorem decodeBytes_two (c1 a b r1 r2 : Nat) (h1 : utf8ascii c1 a = some (r1, a))
    (h2 : utf8ascii a b = some (r2, b)) :
    decodeBytes c1 [a, b] = some ([r1, r2], b) := by
  simp [decodeBytes, h1, h2]

/-- Successive calls on a lead byte and two trailing bytes. -/
theorem decodeBytes_three (c1 a b c r1 r2 r3 : Nat) (h1 : utf8ascii c1 a = some (r1, a))
    (h2 : utf8ascii a b = some (r2, b)) (h3 : utf8ascii b c = some (r3, c)) :
    decodeBytes c1 [a, b, c] = some ([r1, r2, r3], c) := by
  simp [decodeBytes, h1, h2, h3]

/-- Successive calls on a lead byte and three trailing bytes. -/
theorem decodeBytes_four (c1 a b c d r1 r2 r3 r4 : Nat)
    (h1 : utf8ascii c1 a = some (r1, a)) (h2 : utf8ascii a b = some (r2, b))
    (h3 : utf8ascii b c = some (r3, c)) (h4 : utf8ascii c d = some (r4, d)) :
    decodeBytes c1 [a, b, c, d] = some ([r1, r2, r3, r4], d) := by
  simp [decodeBytes, h1, h2, h3, h4]

/-- A byte of 0x80 or more under a register from 0x80 to 0xBF: the letter E for
0xAC under 0x82, and 0 otherwise. -/
theorem utf8ascii_after_trailing (c1 b : Nat) (hc : 0x80 ≤ c1) (hc' : c1 ≤ 0xBF)
    (hb : 0x80 ≤ b) :
    utf8ascii c1 b = some (if c1 = 0x82 ∧ b = 0xAC then 'E'.toNat else 0, b) := by
  by_cases h : c1 = 0x82 ∧ b = 0xAC
  · obtain ⟨h1, h2⟩ := h
    subst h1; subst h2
    decide
  · rw [if_neg h]
    exact utf8ascii_other c1 b hb (by omega) (by omega) h

/-- The stored bytes of the per-byte results of a code point above U+00FF encoded
in UTF-8, from the reset state: the letter E when the encoding holds 0x82
directly followed by 0xAC, nothing otherwise. -/
theorem decodeBytes_above_latin1 (cp : Nat) (h1 : 0xFF < cp) (h2 : cp ≤ 0x10FFFF) :
    ∃ outs c1', decodeBytes 0 (utf8Encode cp) = some (outs, c1') ∧
      emitted outs = if hasEuroPair (utf8Encode cp) then ['E'.toNat] else [] := by
  have hE : 'E'.toNat = 69 := rfl
  unfold utf8Encode
  have hn1 : ¬ cp < 0x80 := by omega
  rw [if_neg hn1]
  by_cases hr2 : cp < 0x800
  · rw [if_pos hr2]
    refine ⟨_, _, decodeBytes_two 0 _ _ 0 0
      (utf8ascii_other 0 _ (by omega) (by decide) (by decide) (by omega))
      (utf8ascii_other _ _ (by omega) (by omega) (by omega) (by omega)), ?_⟩
    have : (0xC0 + cp / 0x40 == 0x82) = false := by
      simp only [beq_eq_false_iff_ne, ne_eq]; omega
    simp [hasEuroPair, emitted, this]
  · rw [if_neg hr2]
    by_cases hr3 : cp < 0x10000
    · rw [if_pos hr3]
      refine ⟨_, _, decodeBytes_three 0 _ _ _ 0 0 _
        (utf8ascii_other 0 _ (by omega) (by decide) (by decide) (by omega))
        (utf8ascii_other _ _ (by omega) (by omega) (by omega) (by omega))
        (utf8ascii_after_trailing _ _ (by omega) (by omega) (by omega)), ?_⟩
      have hlead : (0xE0 + cp / 0x1000 == 0x82) = false := by
        simp only [beq_eq_false_iff_ne, ne_eq]; omega
      by_cases hp : 0x80 + cp / 0x40 % 0x40 = 0x82 ∧ 0x80 + cp % 0x40 = 0xAC
      · simp [hasEuroPair, emitted, hlead, hp, hE]
      · have : ¬ (cp / 0x40 % 0x40 = 2 ∧ cp % 0x40 = 44) := by omega
        simp [hasEuroPair, emitted, hlead, hp, this]
    · rw [if_neg hr3]
      refine ⟨_, _, decodeBytes_four 0 _ _ _ _ 0 0 _ _
        (utf8ascii_other 0 _ (by omega) (by decide) (by decide) (by omega))
        (utf8ascii_other _ _ (by omega) (by omega) (by omega) (by omega))
        (utf8ascii_after_trailing _ _ (by omega) (by omega) (by omega))
        (utf8ascii_after_trailing _ _ (by omega) (by omega) (by omega)), ?_⟩
      have hlead : (0xF0 + cp / 0x40000 == 0x82) = false := by
        simp only [beq_eq_false_iff_ne, ne_eq]; omega
      by_cases hp : 0x80 + cp / 0x1000 % 0x40 = 0x82 ∧ 0x80 + cp / 0x40 % 0x40 = 0xAC
      · have hq : ¬ (0x80 + cp / 0x40 % 0x40 = 0x82 ∧ 0x80 + cp % 0x40 = 0xAC) := by omega
        have hq' : ¬ (cp / 0x40 % 0x40 = 2 ∧ cp % 0x40 = 44) := by omega
        simp [hasEuroPair, emitted, hlead, hp, hq, hq', hE]
      · have hp' : ¬ (cp / 0x1000 % 0x40 = 2 ∧ cp / 0x40 % 0x40 = 44) := by omega
        by_cases hq : 0x80 + cp / 0x40 % 0x40 = 0x82 ∧ 0x80 + cp % 0x40 = 0xAC
        · simp [hasEuroPair, emitted, hlead, hp, hp', hq, hE]
        · have hq' : ¬ (cp / 0x40 % 0x40 = 2 ∧ cp % 0x40 = 44) := by omega
          simp [hasEuroPair, emitted, hlead, hp, hp', hq, hq']
/-- The code points above U+00FF whose UTF-8 encoding holds 0x82 directly
followed by 0xAC: those from U+0800 on that end in 0AC modulo 0x1000, and
those from U+10000 on whose upper part does. -/
theorem hasEuroPair_utf8Encode (cp : Nat) (h1 : 0xFF < cp) :
    hasEuroPair (utf8Encode cp) = true ↔
      (0x800 ≤ cp ∧ cp % 0x1000 = 0xAC) ∨ (0x10000 ≤ cp ∧ cp / 0x40 % 0x1000 = 0xAC) := by
  unfold utf8Encode
  have hn1 : ¬ cp < 0x80 := by omega
  rw [if_neg hn1]
  by_cases hr2 : cp < 0x800
  · rw [if_pos hr2]
    simp only [hasEuroPair, Bool.or_false, Bool.and_eq_true, beq_iff_eq]
    omega
  · rw [if_neg hr2]
    by_cases hr3 : cp < 0x10000
    · rw [if_pos hr3]
      simp only [hasEuroPair, Bool.or_false, Bool.or_eq_true, Bool.and_eq_true, beq_iff_eq]
      omega
    · rw [if_neg hr3]
      simp only [hasEuroPair, Bool.or_false, Bool.or_eq_true, Bool.and_eq_true, beq_iff_eq]
      omega

/-- The bytes of the UTF-8 encoding of a code point other than U+0000 are
non-zero. -/
theorem utf8Encode_ne_zero (cp : Nat) (h : 1 ≤ cp) : ∀ b ∈ utf8Encode cp, b ≠ 0 := by
  intro b hb
  unfold utf8Encode at hb
  split_ifs at hb <;> simp at hb <;> omega

/-- Claim C13, as stated, fails: U+10AC is above U+00FF, is not U+20AC and is no
surrogate; its UTF-8 encoding is 0xE1 0x82 0xAC, and the in-place conversion of
that encoding from the reset state gives the string E, not the empty string. -/
theorem utf8asciiStr_U10AC_not_dropped :
    (0xFF < 0x10AC ∧ 0x10AC ≠ 0x20AC ∧ ¬ (0xD800 ≤ 0x10AC ∧ 0x10AC ≤ 0xDFFF)) ∧
    utf8Encode 0x10AC = [0xE1, 0x82, 0xAC] ∧
    utf8asciiStr 0 (utf8Encode 0x10AC ++ [0]) = some (0xAC, ['E'.toNat, 0, 0xAC, 0]) ∧
    (utf8asciiStr 0 (utf8Encode 0x10AC ++ [0])).map (fun r => cstr r.2) = some ['E'.toNat] ∧
    (utf8asciiStr 0 (utf8Encode 0x10AC ++ [0])).map (fun r => cstr r.2) ≠ some [] := by
  decide

/-- Claim C13, amended. For every code point above U+00FF and up to U+10FFFF, the
in-place conversion of its NUL-terminated UTF-8 encoding from the reset state
gives the empty string unless the encoding holds the byte 0x82 directly followed
by 0xAC, and then it gives the string E.  The encodings that hold that pair are
those of the code points from U+0800 on that are 0x0AC modulo 0x1000 (U+10AC,
U+20AC, U+30AC and so on) and of those from U+10000 on whose quotient by 0x40 is
0x0AC modulo 0x1000. -/
theorem utf8asciiStr_above_latin1 (cp : Nat) (h1 : 0xFF < cp) (h2 : cp ≤ 0x10FFFF) :
    (hasEuroPair (utf8Encode cp) = false →
      (utf8asciiStr 0 (utf8Encode cp ++ [0])).map (fun r => cstr r.2) = some []) ∧
    (hasEuroPair (utf8Encode cp) = true →
      (utf8asciiStr 0 (utf8Encode cp ++ [0])).map (fun r => cstr r.2) = some ['E'.toNat]) ∧
    (hasEuroPair (utf8Encode cp) = true ↔
      (0x800 ≤ cp ∧ cp % 0x1000 = 0xAC) ∨ (0x10000 ≤ cp ∧ cp / 0x40 % 0x1000 = 0xAC)) := by
  obtain ⟨outs, c1', hd, he⟩ := decodeBytes_above_latin1 cp h1 h2
  obtain ⟨s', hs', hc⟩ := utf8asciiStr_of_decodeBytes 0 (utf8Encode cp) [] outs c1'
    (utf8Encode_ne_zero cp (by omega)) hd
  refine ⟨?_, ?_, hasEuroPair_utf8Encode cp h1⟩
  · intro hp
    rw [hs', Option.map_some', hc, he, hp]
    rfl
  · intro hp
    rw [hs', Option.map_some', hc, he, hp]
    rfl

/-- Instance of `utf8asciiStr_above_latin1` at U+0416, encoded 0xD0 0x96, which is
dropped. -/
theorem utf8asciiStr_above_latin1_witness :
    (0xFF < 0x416 ∧ 0x416 ≤ 0x10FFFF ∧ hasEuroPair (utf8Encode 0x416) = false) ∧
    (utf8asciiStr 0 (utf8Encode 0x416 ++ [0])).map (fun r => cstr r.2) = some [] :=
  ⟨by decide, (utf8asciiStr_above_latin1 0x416 (by decide) (by decide)).1 (by decide)⟩

/-! ## Latin-1 text, 7-bit output and idempotence -/

/-- The stored bytes of two lists of returned bytes, one after the other. -/
theorem emitted_append (a b : List Nat) : emitted (a ++ b) = emitted a ++ emitted b := by
  unfold emitted
  exact List.filter_append a b

/-- Under the register 0xC3 a trailing byte from 0x80 to 0xBF returns its entry
of `lut_C3`, which is non-zero. -/
theorem utf8ascii_C3_entry (t : Nat) (h1 : 0x80 ≤ t) (h2 : t ≤ 0xBF) :
    utf8ascii 0xC3 t = some (lut_C3.getD (t - 0x80) 0, t) ∧ lut_C3.getD (t - 0x80) 0 ≠ 0 := by
  interval_cases t <;> exact ⟨by decide, by decide⟩

/-- The per-byte results of a code point U+0001..U+00FF encoded in UTF-8, entered
with a register other than 0xC2 and 0xC3: one byte is stored, the fold of the
code point, and the register is left other than 0xC2 and 0xC3. -/
theorem decodeBytes_latin1 (cp c1 : Nat) (h1 : 1 ≤ cp) (h2 : cp ≤ 0xFF)
    (hc2 : c1 ≠ 0xC2) (hc3 : c1 ≠ 0xC3) :
    ∃ outs c1', decodeBytes c1 (utf8Encode cp) = some (outs, c1') ∧
      emitted outs = [latin1Fold cp] ∧ latin1Fold cp ≠ 0 ∧ c1' ≠ 0xC2 ∧ c1' ≠ 0xC3 := by
  by_cases ha : cp < 0x80
  · have henc : utf8Encode cp = [cp] := by simp [utf8Encode, ha]
    have hu : utf8ascii c1 cp = some (cp, 0) := by
      have : cp ≤ 0x7F := by omega
      simp [utf8ascii, this]
    have hcp : cp ≠ 0 := by omega
    refine ⟨[cp], 0, ?_, ?_, ?_, by decide, by decide⟩
    · rw [henc]
      simp [decodeBytes, hu]
    · simp [emitted, latin1Fold, ha, hcp]
    · simp [latin1Fold, ha, hcp]
  · by_cases hb : cp < 0xC0
    · have henc : utf8Encode cp = [0xC2, cp] := by
        have e1 : 0xC0 + cp / 0x40 = 0xC2 := by omega
        have e2 : 0x80 + cp % 0x40 = cp := by omega
        have hlt : cp < 0x800 := by omega
        simp only [utf8Encode, ha, hlt, if_true, if_false, e1, e2]
      have hx : ¬ cp ≤ 0x7F := by omega
      have hu2 : utf8ascii 0xC2 cp = some ('~'.toNat, cp) := by simp [utf8ascii, hx]
      refine ⟨[0, '~'.toNat], cp, ?_, ?_, ?_, by omega, by omega⟩
      · rw [henc]
        exact decodeBytes_two c1 0xC2 cp 0 _
          (utf8ascii_other c1 0xC2 (by decide) hc2 hc3 (by omega)) hu2
      · simp [emitted, latin1Fold, ha, hb]
      · simp [latin1Fold, ha, hb]
    · have henc : utf8Encode cp = [0xC3, cp - 0x40] := by
        have e1 : 0xC0 + cp / 0x40 = 0xC3 := by omega
        have e2 : 0x80 + cp % 0x40 = cp - 0x40 := by omega
        have hlt : cp < 0x800 := by omega
        simp only [utf8Encode, ha, hlt, if_true, if_false, e1, e2]
      obtain ⟨hu2, hne⟩ := utf8ascii_C3_entry (cp - 0x40) (by omega) (by omega)
      have hidx : cp - 0x40 - 0x80 = cp - 0xC0 := by omega
      rw [hidx] at hu2 hne
      have hfold : latin1Fold cp = lut_C3.getD (cp - 0xC0) 0 := by
        simp [latin1Fold, ha, hb]
      refine ⟨[0, lut_C3.getD (cp - 0xC0) 0], cp - 0x40, ?_, ?_, ?_, by omega, by omega⟩
      · rw [henc]
        exact decodeBytes_two c1 0xC3 (cp - 0x40) 0 _
          (utf8ascii_other c1 0xC3 (by decide) hc2 hc3 (by omega)) hu2
      · rw [hfold]
        generalize lut_C3.getD (cp - 0xC0) 0 = x at hne
        simp [emitted, hne]
      · rw [hfold]
        exact hne

/-- The bytes of the UTF-8 encoding of code points other than U+0000 are
non-zero. -/
theorem utf8EncodeAll_ne_zero (cps : List Nat) (h : ∀ cp ∈ cps, 1 ≤ cp) :
    ∀ b ∈ utf8EncodeAll cps, b ≠ 0 := by
  induction cps with
  | nil => intro b hb; simp [utf8EncodeAll] at hb
  | cons cp cps ih =>
    intro b hb
    simp only [utf8EncodeAll, List.mem_append] at hb
    rcases hb with hb | hb
    · exact utf8Encode_ne_zero cp (h cp (by simp)) b hb
    · exact ih (fun x hx => h x (by simp [hx])) b hb

/-- The per-byte results of a sequence of code points U+0001..U+00FF encoded in
UTF-8: the stored bytes are the folds of the code points, one each. -/
theorem decodeBytes_latin1_all (cps : List Nat) (h : ∀ cp ∈ cps, 1 ≤ cp ∧ cp ≤ 0xFF) :
    ∀ c1, c1 ≠ 0xC2 → c1 ≠ 0xC3 →
      ∃ outs c1', decodeBytes c1 (utf8EncodeAll cps) = some (outs, c1') ∧
        emitted outs = cps.map latin1Fold := by
  induction cps with
  | nil =>
    intro c1 _ _
    exact ⟨[], c1, rfl, rfl⟩
  | cons cp cps ih =>
    intro c1 hc2 hc3
    obtain ⟨o1, c2, hd1, he1, _, h2, h3⟩ :=
      decodeBytes_latin1 cp c1 (h cp (by simp)).1 (h cp (by simp)).2 hc2 hc3
    obtain ⟨o2, c3, hd2, he2⟩ := ih (fun x hx => h x (by simp [hx])) c2 h2 h3
    refine ⟨o1 ++ o2, c3, ?_, ?_⟩
    · rw [utf8EncodeAll, decodeBytes_append _ c1 _ o1 c2 hd1, hd2]
      rfl
    · rw [emitted_append, he1, he2]
      rfl

/-- Claim C17. One output byte per Latin-1 character: for every sequence of code
points each in U+0001..U+00FF, the in-place conversion of its NUL-terminated
UTF-8 encoding from the reset state returns, and the string it leaves has one
byte per code point: the code point itself below U+0080, the tilde for
U+0080..U+00BF, the entry of `lut_C3` for U+00C0..U+00FF, none of them 0. -/
theorem utf8asciiStr_latin1 (cps : List Nat) (h : ∀ cp ∈ cps, 1 ≤ cp ∧ cp ≤ 0xFF) :
    (∃ c1' s', utf8asciiStr 0 (utf8EncodeAll cps ++ [0]) = some (c1', s') ∧
      cstr s' = cps.map latin1Fold ∧ strlen s' = cps.length) ∧
    (∀ cp ∈ cps, latin1Fold cp ≠ 0 ∧
      (cp < 0x80 → latin1Fold cp = cp) ∧
      (0x80 ≤ cp → cp < 0xC0 → latin1Fold cp = '~'.toNat) ∧
      (0xC0 ≤ cp → lut_C3[cp - 0xC0]? = some (latin1Fold cp))) := by
  constructor
  · obtain ⟨outs, c1', hd, he⟩ := decodeBytes_latin1_all cps h 0 (by decide) (by decide)
    obtain ⟨s', hs', hc⟩ := utf8asciiStr_of_decodeBytes 0 (utf8EncodeAll cps) [] outs c1'
      (utf8EncodeAll_ne_zero cps (fun cp hcp => (h cp hcp).1)) hd
    refine ⟨c1', s', hs', by rw [hc, he], ?_⟩
    unfold strlen
    rw [hc, he, List.length_map]
  · intro cp hcp
    obtain ⟨h1, h2⟩ := h cp hcp
    obtain ⟨_, _, _, _, hne, _, _⟩ := decodeBytes_latin1 cp 0 h1 h2 (by decide) (by decide)
    refine ⟨hne, ?_, ?_, ?_⟩
    · intro ha
      simp [latin1Fold, ha]
    · intro ha hb
      have : ¬ cp < 0x80 := by omega
      simp [latin1Fold, this, hb]
    · intro ha
      have hn1 : ¬ cp < 0x80 := by omega
      have hn2 : ¬ cp < 0xC0 := by omega
      have hlen : lut_C3.length = 65 := by decide
      have hidx : cp - 0xC0 < lut_C3.length := by omega
      simp [latin1Fold, hn1, hn2, List.getD_eq_getElem?_getD, List.getElem?_eq_getElem hidx]

/-- Instance of `utf8asciiStr_latin1` on the code points of the word "Ca" followed
by U+00F1 (n with tilde) and U+00A9 (copyright sign). -/
theorem utf8asciiStr_latin1_witness :
    (∀ cp ∈ [0x43, 0x61, 0xF1, 0xA9], 1 ≤ cp ∧ cp ≤ 0xFF) ∧
    utf8EncodeAll [0x43, 0x61, 0xF1, 0xA9] = [0x43, 0x61, 0xC3, 0xB1, 0xC2, 0xA9] ∧
    [0x43, 0x61, 0xF1, 0xA9].map latin1Fold = ['C'.toNat, 'a'.toNat, 'n'.toNat, '~'.toNat] ∧
    ∃ c1' s', utf8asciiStr 0 (utf8EncodeAll [0x43, 0x61, 0xF1, 0xA9] ++ [0]) = some (c1', s') ∧
      cstr s' = [0x43, 0x61, 0xF1, 0xA9].map latin1Fold ∧
      strlen s' = [0x43, 0x61, 0xF1, 0xA9].length :=
  ⟨by decide, by decide, by decide,
    (utf8asciiStr_latin1 [0x43, 0x61, 0xF1, 0xA9] (by decide)).1⟩

/-- Every byte of `lut_C3` is at most 0x7F. -/
theorem lut_C3_le : ∀ x ∈ lut_C3, x ≤ 0x7F := by
  decide

/-- Whatever the per-byte decoder returns is at most 0x7F. -/
theorem utf8ascii_result_le (c1 b r c1' : Nat) (h : utf8ascii c1 b = some (r, c1')) :
    r ≤ 0x7F := by
  unfold utf8ascii at h
  split_ifs at h with h1 h2 h3 h4 h5
  · simp only [Option.some.injEq, Prod.mk.injEq] at h; omega
  · simp only [Option.some.injEq, Prod.mk.injEq] at h
    rw [← h.1]; decide
  · cases hl : lut_C3[b - 128]? with
    | none => simp [hl] at h
    | some x =>
      simp only [hl, Option.some.injEq, Prod.mk.injEq] at h
      have hx : x ∈ lut_C3 := List.getElem?_mem hl
      have := lut_C3_le x hx
      omega
  · simp only [Option.some.injEq, Prod.mk.injEq] at h
    rw [← h.1]; decide
  · simp only [Option.some.injEq, Prod.mk.injEq] at h; omega
  · simp only [Option.some.injEq, Prod.mk.injEq] at h; omega

/-- Every byte returned by successive calls is at most 0x7F. -/
theorem decodeBytes_results_le (bytes : List Nat) :
    ∀ (c1 : Nat) (outs : List Nat) (c1' : Nat), decodeBytes c1 bytes = some (outs, c1') →
      ∀ r ∈ outs, r ≤ 0x7F := by
  induction bytes with
  | nil =>
    intro c1 outs c1' h r hr
    simp only [decodeBytes, Option.some.injEq, Prod.mk.injEq] at h
    rw [← h.1] at hr
    simp at hr
  | cons b bs ih =>
    intro c1 outs c1' h r hr
    cases hu : utf8ascii c1 b with
    | none => rw [decodeBytes_cons_none c1 b bs hu] at h; cases h
    | some p =>
      obtain ⟨x, c2⟩ := p
      rw [decodeBytes_cons_some c1 b x c2 bs hu] at h
      cases hd : decodeBytes c2 bs with
      | none => simp [hd] at h
      | some q =>
        obtain ⟨o, c3⟩ := q
        simp only [hd, Option.map_some', Option.some.injEq, Prod.mk.injEq] at h
        rw [← h.1] at hr
        rcases List.mem_cons.mp hr with hr | hr
        · rw [hr]; exact utf8ascii_result_le c1 b x c2 hu
        · exact ih c2 o c3 hd r hr

/-- The string left by the in-place conversion, when it returns, holds only bytes
from 0x01 to 0x7F. -/
theorem utf8asciiStr_string_7bit (c1 : Nat) (s : List Nat) (h0 : 0 ∈ s) (c1' : Nat)
    (s' : List Nat) (h : utf8asciiStr c1 s = some (c1', s')) :
    ∀ b ∈ cstr s', 1 ≤ b ∧ b ≤ 0x7F := by
  obtain ⟨outs, hd, hs', _, _⟩ := utf8asciiStr_some_layout c1 s h0 c1' s' h
  have hc : cstr s' = emitted outs := by
    rw [hs']
    exact cstr_append_zero _ _ (emitted_ne_zero outs)
  intro b hb
  rw [hc] at hb
  have hne := emitted_ne_zero outs b hb
  have hle := decodeBytes_results_le (cstr s) c1 outs c1' hd b (List.mem_of_mem_filter hb)
  omega

/-- The per-byte decoder returns, with the register as the claims describe it,
whenever the register is not 0xC3 or the input byte is at most 0xC0. -/
theorem utf8ascii_defined (c1 b : Nat) (h : c1 ≠ 0xC3 ∨ b ≤ 0xC0) :
    ∃ r, utf8ascii c1 b = some (r, if b ≤ 0x7F then 0 else b) := by
  cases hu : utf8ascii c1 b with
  | none =>
    have := (utf8ascii_eq_none_iff c1 b).mp hu
    omega
  | some p =>
    obtain ⟨r, c1'⟩ := p
    rw [utf8ascii_register_after c1 b r c1' hu]
    exact ⟨r, rfl⟩

/-- The per-byte decoder returns on every byte of the UTF-8 encoding of a code
point up to U+10FFFF when entered with a register other than 0xC3, and leaves
a register other than 0xC3. -/
theorem decodeBytes_scalar (cp c1 : Nat) (h2 : cp ≤ 0x10FFFF) (hc : c1 ≠ 0xC3) :
    ∃ outs c1', decodeBytes c1 (utf8Encode cp) = some (outs, c1') ∧ c1' ≠ 0xC3 := by
  unfold utf8Encode
  by_cases hr1 : cp < 0x80
  · rw [if_pos hr1]
    have hu : utf8ascii c1 cp = some (cp, 0) := by
      have : cp ≤ 0x7F := by omega
      simp [utf8ascii, this]
    exact ⟨[cp], 0, by simp [decodeBytes, hu], by decide⟩
  · rw [if_neg hr1]
    by_cases hr2 : cp < 0x800
    · rw [if_pos hr2]
      obtain ⟨r1, hu1⟩ := utf8ascii_defined c1 (0xC0 + cp / 0x40) (Or.inl hc)
      obtain ⟨r2, hu2⟩ := utf8ascii_defined (0xC0 + cp / 0x40) (0x80 + cp % 0x40)
        (Or.inr (by omega))
      rw [if_neg (by omega)] at hu1 hu2
      exact ⟨_, _, decodeBytes_two c1 _ _ r1 r2 hu1 hu2, by omega⟩
    · rw [if_neg hr2]
      by_cases hr3 : cp < 0x10000
      · rw [if_pos hr3]
        obtain ⟨r1, hu1⟩ := utf8ascii_defined c1 (0xE0 + cp / 0x1000) (Or.inl hc)
        obtain ⟨r2, hu2⟩ := utf8ascii_defined (0xE0 + cp / 0x1000) (0x80 + cp / 0x40 % 0x40)
          (Or.inr (by omega))
        obtain ⟨r3, hu3⟩ := utf8ascii_defined (0x80 + cp / 0x40 % 0x40) (0x80 + cp % 0x40)
          (Or.inr (by omega))
        rw [if_neg (by omega)] at hu1 hu2 hu3
        exact ⟨_, _, decodeBytes_three c1 _ _ _ r1 r2 r3 hu1 hu2 hu3, by omega⟩
      · rw [if_neg hr3]
        obtain ⟨r1, hu1⟩ := utf8ascii_defined c1 (0xF0 + cp / 0x40000) (Or.inl hc)
        obtain ⟨r2, hu2⟩ := utf8ascii_defined (0xF0 + cp / 0x40000)
          (0x80 + cp / 0x1000 % 0x40) (Or.inr (by omega))
        obtain ⟨r3, hu3⟩ := utf8ascii_defined (0x80 + cp / 0x1000 % 0x40)
          (0x80 + cp / 0x40 % 0x40) (Or.inr (by omega))
        obtain ⟨r4, hu4⟩ := utf8ascii_defined (0x80 + cp / 0x40 % 0x40) (0x80 + cp % 0x40)
          (Or.inr (by omega))
        rw [if_neg (by omega)] at hu1 hu2 hu3 hu4
        exact ⟨_, _, decodeBytes_four c1 _ _ _ _ r1 r2 r3 r4 hu1 hu2 hu3 hu4, by omega⟩

/-- The per-byte decoder returns on every byte of the UTF-8 encoding of a
sequence of code points up to U+10FFFF when entered with a register other than
0xC3. -/
theorem decodeBytes_scalars (cps : List Nat) (h : ∀ cp ∈ cps, cp ≤ 0x10FFFF) :
    ∀ c1, c1 ≠ 0xC3 → ∃ outs c1', decodeBytes c1 (utf8EncodeAll cps) = some (outs, c1') := by
  induction cps with
  | nil =>
    intro c1 _
    exact ⟨[], c1, rfl⟩
  | cons cp cps ih =>
    intro c1 hc
    obtain ⟨o1, c2, hd1, hc2⟩ := decodeBytes_scalar cp c1 (h cp (by simp)) hc
    obtain ⟨o2, c3, hd2⟩ := ih (fun x hx => h x (by simp [hx])) c2 hc2
    refine ⟨o1 ++ o2, c3, ?_⟩
    rw [utf8EncodeAll, decodeBytes_append _ c1 _ o1 c2 hd1, hd2]
    rfl

/-- Claim C18. Output is always 7-bit: whatever the register and the input byte,
except for the register 0xC3 with an input above 0xC0, the per-byte decoder
returns a value of at most 0x7F.  Hence, on any buffer that holds a 0 byte, the
string the in-place conversion leaves when it returns holds only bytes from
0x01 to 0x7F; and on the NUL-terminated UTF-8 encoding of code points from
U+0001 to U+10FFFF, entered with a register other than 0xC3 (the reset state
for one), it does return. -/
theorem utf8ascii_output_7bit (c1 b : Nat) (h : ¬ (c1 = 0xC3 ∧ 0xC0 < b)) :
    (∃ r c1', utf8ascii c1 b = some (r, c1') ∧ r ≤ 0x7F) ∧
    (∀ (s s' : List Nat) (c0 c0' : Nat), 0 ∈ s → utf8asciiStr c0 s = some (c0', s') →
      ∀ x ∈ cstr s', 1 ≤ x ∧ x ≤ 0x7F) ∧
    (∀ (cps rest : List Nat) (c0 : Nat), (∀ cp ∈ cps, 1 ≤ cp ∧ cp ≤ 0x10FFFF) → c0 ≠ 0xC3 →
      ∃ c0' s', utf8asciiStr c0 (utf8EncodeAll cps ++ 0 :: rest) = some (c0', s') ∧
        ∀ x ∈ cstr s', 1 ≤ x ∧ x ≤ 0x7F) := by
  refine ⟨?_, ?_, ?_⟩
  · cases hu : utf8ascii c1 b with
    | none => exact absurd ((utf8ascii_eq_none_iff c1 b).mp hu) h
    | some p =>
      obtain ⟨r, c1'⟩ := p
      exact ⟨r, c1', rfl, utf8ascii_result_le c1 b r c1' hu⟩
  · intro s s' c0 c0' h0 hres
    exact utf8asciiStr_string_7bit c0 s h0 c0' s' hres
  · intro cps rest c0 hcps hc0
    obtain ⟨outs, c0', hd⟩ := decodeBytes_scalars cps (fun cp hcp => (hcps cp hcp).2) c0 hc0
    obtain ⟨s', hs', _⟩ := utf8asciiStr_of_decodeBytes c0 (utf8EncodeAll cps) rest outs c0'
      (utf8EncodeAll_ne_zero cps (fun cp hcp => (hcps cp hcp).1)) hd
    exact ⟨c0', s', hs', utf8asciiStr_string_7bit c0 _ (by simp) c0' s' hs'⟩

/-- Instance of `utf8ascii_output_7bit`: the input 0xC0 under the register 0xC3,
which reads the last byte of `lut_C3` and returns 0. -/
theorem utf8ascii_output_7bit_witness :
    ¬ (0xC3 = 0xC3 ∧ 0xC0 < 0xC0) ∧
    ∃ r c1', utf8ascii 0xC3 0xC0 = some (r, c1') ∧ r ≤ 0x7F :=
  ⟨by decide, (utf8ascii_output_7bit 0xC3 0xC0 (by decide)).1⟩
/-- Whether a pair on which `lut_C3` is read past its end follows a first byte
depends on that byte only through its being 0xC3. -/
theorem hasOverrun_cons_congr (x y : Nat) (bs : List Nat) (hx : x ≠ 0xC3) (hy : y ≠ 0xC3) :
    hasOverrun (x :: bs) = hasOverrun (y :: bs) := by
  cases bs with
  | nil => rfl
  | cons b bs =>
    have h1 : (x == 0xC3) = false := by simpa using hx
    have h2 : (y == 0xC3) = false := by simpa using hy
    simp only [hasOverrun, h1, h2]

/-- Successive calls have no result exactly when the register on entry followed
by the bytes holds a 0xC3 directly followed by a byte above 0xC0. -/
theorem decodeBytes_eq_none_iff (bytes : List Nat) :
    ∀ c1, decodeBytes c1 bytes = none ↔ hasOverrun (c1 :: bytes) = true := by
  induction bytes with
  | nil => intro c1; simp [decodeBytes, hasOverrun]
  | cons b bs ih =>
    intro c1
    cases hu : utf8ascii c1 b with
    | none =>
      obtain ⟨h1, h2⟩ := (utf8ascii_eq_none_iff c1 b).mp hu
      rw [decodeBytes_cons_none c1 b bs hu]
      simp [hasOverrun, h1, h2]
    | some p =>
      obtain ⟨r, c1'⟩ := p
      have hno : ¬ (c1 = 0xC3 ∧ 0xC0 < b) := by
        intro h
        rw [(utf8ascii_eq_none_iff c1 b).mpr h] at hu
        cases hu
      have hreg := utf8ascii_register_after c1 b r c1' hu
      have hcongr : hasOverrun (c1' :: bs) = hasOverrun (b :: bs) := by
        by_cases hb : b ≤ 0x7F
        · rw [hreg, if_pos hb]
          exact hasOverrun_cons_congr 0 b bs (by decide) (by omega)
        · rw [hreg, if_neg hb]
      rw [decodeBytes_cons_some c1 b r c1' bs hu]
      have hfirst : (c1 == 0xC3 && decide (0xC0 < b)) = false := by
        by_cases h1 : c1 = 0xC3
        · have : ¬ 0xC0 < b := fun h2 => hno ⟨h1, h2⟩
          simp [this]
        · simp [h1]
      rw [hasOverrun, hfirst, Bool.false_or, ← hcongr, ← ih c1']
      cases decodeBytes c1' bs with
      | none => simp
      | some q => simp

/-- The in-place conversion of a buffer that holds a 0 byte and whose bytes
before it are all at most 0x7F returns the buffer as it was, whatever the
register. -/
theorem utf8asciiStr_of_ascii (c1 : Nat) (s : List Nat) (h0 : 0 ∈ s)
    (hascii : ∀ b ∈ cstr s, b ≤ 0x7F) :
    utf8asciiStr c1 s = some (if cstr s = [] then c1 else 0, s) := by
  rw [utf8asciiStr_eq_filterAfterMap c1 s h0]
  unfold filterAfterMap
  rw [decodeBytes_ascii (cstr s) hascii c1]
  show some (_, emitted (cstr s) ++ 0 :: s.drop ((emitted (cstr s)).length + 1)) = _
  rw [emitted_eq_self (cstr s) (cstr_ne_zero s), cstr_drop s h0]

/-- Claim C19. In-place conversion is idempotent: on a buffer that holds a 0 byte
and in which, before that 0, no 0xC3 byte is directly followed by a byte above
0xC0, the conversion from the reset state returns, and converting the buffer it
leaves once more, with the register as the first conversion left it or with any
other register, returns that same buffer, so the same string up to and
including the terminator. -/
theorem utf8asciiStr_idempotent (s : List Nat) (h0 : 0 ∈ s)
    (hno : hasOverrun (cstr s) = false) :
    ∃ c1' s', utf8asciiStr 0 s = some (c1', s') ∧
      (∃ c1'', utf8asciiStr c1' s' = some (c1'', s')) ∧
      (∀ c, ∃ c'', utf8asciiStr c s' = some (c'', s')) ∧
      ((utf8asciiStr 0 s).bind (fun r => utf8asciiStr r.1 r.2)).map (fun r => cstr r.2)
        = some (cstr s') := by
  have hdef : decodeBytes 0 (cstr s) ≠ none := by
    intro hnone
    have h1 := (decodeBytes_eq_none_iff (cstr s) 0).mp hnone
    have h2 : hasOverrun (0 :: cstr s) = hasOverrun (cstr s) := by
      cases cstr s with
      | nil => rfl
      | cons b bs => simp [hasOverrun]
    rw [h2, hno] at h1
    cases h1
  have hsome : (utf8asciiStr 0 s).isSome := by
    rw [utf8asciiStr_isSome_iff 0 s h0]
    cases hd : decodeBytes 0 (cstr s) with
    | none => exact absurd hd hdef
    | some q => rfl
  obtain ⟨⟨c1', s'⟩, hres⟩ := Option.isSome_iff_exists.mp hsome
  obtain ⟨outs, _, hs', _, _⟩ := utf8asciiStr_some_layout 0 s h0 c1' s' hres
  have h0' : 0 ∈ s' := by
    rw [hs']
    simp
  have hascii : ∀ b ∈ cstr s', b ≤ 0x7F :=
    fun b hb => (utf8asciiStr_string_7bit 0 s h0 c1' s' hres b hb).2
  have hagain : ∀ c, utf8asciiStr c s' = some (if cstr s' = [] then c else 0, s') :=
    fun c => utf8asciiStr_of_ascii c s' h0' hascii
  refine ⟨c1', s', hres, ⟨_, hagain c1'⟩, fun c => ⟨_, hagain c⟩, ?_⟩
  rw [hres, Option.some_bind, hagain c1']
  rfl

/-- Instance of `utf8asciiStr_idempotent` on the buffer H i 0xC3 0xA9 0: the second
conversion, entered with the register 0xA9, leaves H i e 0 0 as it is. -/
theorem utf8asciiStr_idempotent_witness :
    (0 ∈ [0x48, 0x69, 0xC3, 0xA9, 0] ∧ hasOverrun (cstr [0x48, 0x69, 0xC3, 0xA9, 0]) = false) ∧
    utf8asciiStr 0 [0x48, 0x69, 0xC3, 0xA9, 0] = some (0xA9, [0x48, 0x69, 0x65, 0, 0]) ∧
    utf8asciiStr 0xA9 [0x48, 0x69, 0x65, 0, 0] = some (0, [0x48, 0x69, 0x65, 0, 0]) ∧
    ∃ c1' s', utf8asciiStr 0 [0x48, 0x69, 0xC3, 0xA9, 0] = some (c1', s') ∧
      (∃ c1'', utf8asciiStr c1' s' = some (c1'', s')) ∧
      (∀ c, ∃ c'', utf8asciiStr c s' = some (c'', s')) ∧
      ((utf8asciiStr 0 [0x48, 0x69, 0xC3, 0xA9, 0]).bind
          (fun r => utf8asciiStr r.1 r.2)).map (fun r => cstr r.2)
        = some (cstr s') :=
  ⟨by decide, by decide, by decide,
    utf8asciiStr_idempotent [0x48, 0x69, 0xC3, 0xA9, 0] (by decide) (by decide)⟩

end EspRadio
